import Mathlib

/-!
Verification of `mhlib/permutation_solution.py` (`PermutationSolution`):
a shallow embedding of the permutation solution class and its operators
(random initialization, 2-exchange neighborhood search, partially mapped
crossover, cycle crossover, edge recombination), together with theorems
checking the natural-language specification against that embedding.

Modelling conventions:
* Python lists / numpy integer arrays become `List Nat`.
* `random` / `np.random` draws become an explicit draw sequence
  `ds : Nat → Nat`; a call `random.randrange(k)` at draw index `t` is
  `ds t % k` (raising `ValueError` when `k = 0`, modelled as `Option.none`),
  and `random.choice(lst)` is `lst.getD (ds t % lst.length) 0`.
* In-place mutation becomes state threading; fallible operations return
  `Option`.
-/

namespace PermSol

/-- A list is a permutation of `{0,...,n-1}` where `n` is its length
(the invariant `set(self.x) == set(range(len(self.x)))` of `check`). -/
def IsPermList (l : List Nat) : Prop := l.Perm (List.range l.length)

instance (l : List Nat) : Decidable (IsPermList l) := by
  unfold IsPermList; infer_instance

/-- Python's simultaneous swap `x[p], x[q] = x[q], x[p]` on a list. -/
def swapXs (l : List Nat) (p q : Nat) : List Nat :=
  (l.set p (l.getD q 0)).set q (l.getD p 0)

/-- `pos` array built by `for i, elem in enumerate(l): pos[elem] = i`
(`np.empty` cells that are never written are modelled as `0`). -/
def buildPos (l : List Nat) : Nat → Nat :=
  (List.range l.length).foldl (fun P i => Function.update P (l.getD i 0) i) (fun _ => 0)

/-- One backward pass of the Fisher–Yates shuffle used by
`np.random.shuffle`: positions `i+1` down to `1`, each swapped with a
drawn position `ds (i+1) % (i+2) ∈ [0, i+1]`. -/
def fyAux (ds : Nat → Nat) : Nat → List Nat → List Nat
  | 0, l => l
  | i + 1, l => fyAux ds i (swapXs l (i + 1) (ds (i + 1) % (i + 2)))

/-- `initialize`: `np.random.shuffle(self.x)` (the cache invalidation is
not part of the sequence, which is all the claims are about). -/
def shuffleSeq (ds : Nat → Nat) (l : List Nat) : List Nat :=
  fyAux ds (l.length - 1) l

section SwapLemmas

theorem swapXs_length (l : List Nat) (p q : Nat) :
    (swapXs l p q).length = l.length := by
  simp [swapXs]

theorem mem_iff_exists_getElem {l : List Nat} {v : Nat} :
    v ∈ l ↔ ∃ k, ∃ h : k < l.length, l[k] = v := List.mem_iff_getElem

theorem swapXs_mem_of_lt {l : List Nat} {p q : Nat} (hp : p < l.length)
    (hq : q < l.length) {v : Nat} (hv : v ∈ l) : v ∈ swapXs l p q := by
  unfold swapXs
  obtain ⟨k, hk, hkv⟩ := mem_iff_exists_getElem.1 hv
  rw [mem_iff_exists_getElem]
  by_cases hkp : k = p
  · subst hkp
    refine ⟨q, by simpa [List.length_set] using hq, ?_⟩
    simp [List.getElem_set, List.getD_eq_getElem?_getD, List.getElem?_eq_getElem hk, hkv]
  · by_cases hkq : k = q
    · subst hkq
      refine ⟨p, by simpa [List.length_set] using hp, ?_⟩
      by_cases hpq : p = k
      · simp [List.getElem_set, hpq, List.getD_eq_getElem?_getD,
          List.getElem?_eq_getElem hk, hkv]
      · simp [List.getElem_set, hpq, Ne.symm hpq, List.getD_eq_getElem?_getD,
          List.getElem?_eq_getElem hp, List.getElem?_eq_getElem hk, hkv]
    · refine ⟨k, by simpa [List.length_set] using hk, ?_⟩
      simp [List.getElem_set, Ne.symm hkp, Ne.symm hkq, hkv]

theorem isPermList_iff_superset {l : List Nat} :
    IsPermList l ↔ ∀ v ∈ List.range l.length, v ∈ l := by
  constructor
  · intro h v hv
    exact (h.mem_iff).2 hv
  · intro h
    have hsub : List.range l.length ⊆ l := fun v hv => h v hv
    have hsp : List.Subperm (List.range l.length) l :=
      List.subperm_of_subset (List.nodup_range _) hsub
    have := hsp.perm_of_length_le (by simp)
    exact this.symm

theorem swapXs_isPerm {l : List Nat} {p q : Nat} (hp : p < l.length)
    (hq : q < l.length) (h : IsPermList l) : IsPermList (swapXs l p q) := by
  rw [isPermList_iff_superset] at h ⊢
  intro v hv
  rw [swapXs_length] at hv
  exact swapXs_mem_of_lt hp hq (h v hv)

theorem fyAux_isPerm (ds : Nat → Nat) :
    ∀ (i : Nat) (l : List Nat), i < l.length → IsPermList l →
      IsPermList (fyAux ds i l)
  | 0, l, _, h => h
  | i + 1, l, hi, h => by
    rw [fyAux]
    have hlen : (swapXs l (i + 1) (ds (i + 1) % (i + 2))).length = l.length :=
      swapXs_length l _ _
    refine fyAux_isPerm ds i _ ?_ ?_
    · rw [hlen]; omega
    · exact swapXs_isPerm hi (by have := Nat.mod_lt (ds (i + 1)) (y := i + 2) (by omega); omega) h

theorem shuffleSeq_isPerm (ds : Nat → Nat) (l : List Nat) (h : IsPermList l) :
    IsPermList (shuffleSeq ds l) := by
  unfold shuffleSeq
  rcases l with _ | ⟨a, l⟩
  · exact h
  · exact fyAux_isPerm ds _ _ (by simp) h

theorem shuffleSeq_length (ds : Nat → Nat) (l : List Nat) :
    (shuffleSeq ds l).length = l.length := by
  unfold shuffleSeq
  generalize l.length - 1 = i
  induction i generalizing l with
  | zero => rfl
  | succ i ih => rw [fyAux, ih, swapXs_length]

end SwapLemmas

/-! ## Partially mapped crossover (PMX) -/

/-- The first cut draw `begin = random.randrange(size)` of
`partially_mapped_crossover`, for a draw value `d` (only meaningful for
`size > 0`, where `randrange` does not raise). -/
def pmxFirstDraw (size d : Nat) : Nat := d % size

/-- The second cut draw `end = random.randrange(size - 1)` of
`partially_mapped_crossover` (only meaningful for `size > 1`). -/
def pmxSecondDraw (size d : Nat) : Nat := d % (size - 1)

/-- Cut-point selection of `partially_mapped_crossover`:
`begin = randrange(size)`, `end = randrange(size-1)`, `end += 1` when
equal, then order so that `begin < end`.  `none` models the `ValueError`
raised by `randrange(0)` (for `size ≤ 1`). -/
def pmxCuts (size d0 d1 : Nat) : Option (Nat × Nat) :=
  if size = 0 then none
  else if size - 1 = 0 then none
  else
    let b := pmxFirstDraw size d0
    let e0 := pmxSecondDraw size d1
    let e := if b = e0 then e0 + 1 else e0
    if b > e then some (e, b) else some (b, e)

/-- Body of the PMX exchange loop
(`elem = other.x[i]; j = pos[elem]; if i != j: swap child and pos`). -/
def pmxStep (bX : List Nat) (st : List Nat × (Nat → Nat)) (i : Nat) :
    List Nat × (Nat → Nat) :=
  let child := st.1
  let pos := st.2
  let elem := bX.getD i 0
  let j := pos elem
  if i ≠ j then
    let elem2 := child.getD i 0
    ((child.set i elem).set j elem2,
      Function.update (Function.update pos elem i) elem2 j)
  else st

/-- `partially_mapped_crossover`: returns the child sequence, `none` when
`randrange` raises (`size ≤ 1`). -/
def pmx (aX bX : List Nat) (ds : Nat → Nat) : Option (List Nat) :=
  let size := aX.length
  match pmxCuts size (ds 0) (ds 1) with
  | none => none
  | some (b, e) =>
    some ((List.range' b (e - b)).foldl (pmxStep bX) (aX, buildPos aX)).1

/-! ## Cycle crossover -/

/-- The inner `while not group[j]` walk of `cycle_crossover`, marking every
index of one cycle with `gid`; `fuel` bounds the walk (the source loop
terminates because each iteration marks a fresh index, so `fuel = size`
is always enough). -/
def markCycle (bX : List Nat) (pos : Nat → Nat) :
    Nat → (Nat → Nat) → Nat → Nat → (Nat → Nat)
  | 0, group, _, _ => group
  | fuel + 1, group, gid, j =>
    if group j ≠ 0 then group
    else markCycle bX pos fuel (Function.update group j gid) gid (pos (bX.getD j 0))

/-- The cycle-detection pass of `cycle_crossover` (`group` array and
`group_id` counter); returns the final `group` labelling. -/
def cycleGroups (aX bX : List Nat) : Nat → Nat :=
  let size := aX.length
  let pos := buildPos aX
  ((List.range size).foldl (fun (st : (Nat → Nat) × Nat) i =>
      if st.1 i ≠ 0 then st
      else (markCycle bX pos size st.1 st.2 i, st.2 + 1))
    ((fun _ => 0), 1)).1

/-- The numpy fancy assignment `child.x[pos] = other.x[pos]` where `pos`
is the whole position array: for each value `v`, the cell at index
`pos[v]` is overwritten with `other.x[pos[v]]`. -/
def fancyAssignPos (pos : Nat → Nat) (bX child : List Nat) : List Nat :=
  (List.range child.length).foldl (fun c v => c.set (pos v) (bX.getD (pos v) 0)) child

/-- `cycle_crossover` exactly as written in the source: the `group`
labelling is computed but never used by the exchange loop, which instead
tests `child.x[i] % 2 == 1` (the *value* parity) and then performs the
whole-array fancy assignment `child.x[pos] = other.x[pos]`. -/
def cycleCrossover (aX bX : List Nat) : List Nat :=
  let size := aX.length
  let pos := buildPos aX
  let _group := cycleGroups aX bX
  (List.range size).foldl (fun child i =>
    if child.getD i 0 % 2 = 1 then fancyAssignPos pos bX child else child) aX

/-- Modelled from the spec (§4.5), for comparison with the source's
`cycle_crossover`: clone the first parent, and for indices belonging to
every other cycle (here: even `group` ids, the parity matching the
repository's `cycle_crossover_test.py` expectations) overwrite the
child's value with the other parent's value at the same index. -/
def cycleCrossoverSpec (aX bX : List Nat) : List Nat :=
  let size := aX.length
  let group := cycleGroups aX bX
  (List.range size).foldl (fun child i =>
    if group i % 2 = 0 then child.set i (bX.getD i 0) else child) aX

/-- The child demanded by claim C3 at parity selector `sel`: the first
parent's value where `group i % 2 = sel % 2`, the other parent's value
elsewhere. -/
def cycleParityChild (aX bX : List Nat) (sel : Nat) : List Nat :=
  let group := cycleGroups aX bX
  (List.range aX.length).foldl (fun child i =>
    if group i % 2 = sel % 2 then child else child.set i (bX.getD i 0)) aX

/-- Claim C2 (code_bug): the spec and the repository's own
`cycle_crossover_test.py` demand child `[1,4,6,2,0,3,5]` for parents
`[1,4,6,2,0,3,5]`/`[6,1,4,2,5,0,3]`, child `[1,4,6,0,2,3,5]` for parents
`[1,4,6,2,0,3,5]`/`[6,1,4,0,2,5,3]`, and child `[6,1,4,2,0,5,3]` with
the roles swapped.  The source's `cycle_crossover` (value-parity test
plus whole-array fancy assignment) instead returns the *second* parent in
each case, while the spec-modelled §4.5 algorithm returns exactly the
claimed children. -/
theorem C2_cycle_crossover_concrete_cases :
    cycleCrossover [1, 4, 6, 2, 0, 3, 5] [6, 1, 4, 2, 5, 0, 3] = [6, 1, 4, 2, 5, 0, 3] ∧
    [6, 1, 4, 2, 5, 0, 3] ≠ [1, 4, 6, 2, 0, 3, 5] ∧
    cycleCrossover [1, 4, 6, 2, 0, 3, 5] [6, 1, 4, 0, 2, 5, 3] = [6, 1, 4, 0, 2, 5, 3] ∧
    [6, 1, 4, 0, 2, 5, 3] ≠ [1, 4, 6, 0, 2, 3, 5] ∧
    cycleCrossover [6, 1, 4, 0, 2, 5, 3] [1, 4, 6, 2, 0, 3, 5] = [1, 4, 6, 2, 0, 3, 5] ∧
    [1, 4, 6, 2, 0, 3, 5] ≠ [6, 1, 4, 2, 0, 5, 3] ∧
    cycleCrossoverSpec [1, 4, 6, 2, 0, 3, 5] [6, 1, 4, 2, 5, 0, 3] = [1, 4, 6, 2, 0, 3, 5] ∧
    cycleCrossoverSpec [1, 4, 6, 2, 0, 3, 5] [6, 1, 4, 0, 2, 5, 3] = [1, 4, 6, 0, 2, 3, 5] ∧
    cycleCrossoverSpec [6, 1, 4, 0, 2, 5, 3] [1, 4, 6, 2, 0, 3, 5] = [6, 1, 4, 2, 0, 5, 3] := by
  decide

/-- Claim C3 (code_bug): for parents `[0,1,2,3]` and `[1,0,3,2]` the
cycle partition (computed by the source's own cycle-detection pass) is
`group = [1,1,2,2]`, so the claimed child carries one parent's values on
one whole cycle and the other parent's on the other:
`[1,0,2,3]` or `[0,1,3,2]`.  The source's exchange loop ignores `group`
(it tests the *value* parity `child.x[i] % 2` and then copies the whole
array) and returns `[1,0,3,2]`, matching neither parity assignment. -/
theorem C3_cycle_crossover_alternation :
    cycleCrossover [0, 1, 2, 3] [1, 0, 3, 2] = [1, 0, 3, 2] ∧
    (List.range 4).map (cycleGroups [0, 1, 2, 3] [1, 0, 3, 2]) = [1, 1, 2, 2] ∧
    cycleParityChild [0, 1, 2, 3] [1, 0, 3, 2] 0 = [1, 0, 2, 3] ∧
    cycleParityChild [0, 1, 2, 3] [1, 0, 3, 2] 1 = [0, 1, 3, 2] ∧
    cycleCrossover [0, 1, 2, 3] [1, 0, 3, 2] ≠ cycleParityChild [0, 1, 2, 3] [1, 0, 3, 2] 0 ∧
    cycleCrossover [0, 1, 2, 3] [1, 0, 3, 2] ≠ cycleParityChild [0, 1, 2, 3] [1, 0, 3, 2] 1 := by
  decide

/-! ## Two-exchange neighborhood search -/

/-- The mutable solution state seen by `two_exchange_neighborhood_search`:
the sequence `self.x`, the cached objective `self.obj_val` and its
validity flag `self.obj_val_valid` (owned by the `VectorSolution`
collaborator). -/
structure SolState where
  x : List Nat
  objVal : Int
  objValid : Bool
deriving DecidableEq, Repr

/-- `self.obj()`: return the cached objective if valid, otherwise
recompute it with the problem-specific objective `f` and cache it. -/
def objEval (f : List Nat → Int) (s : SolState) : Int × SolState :=
  if s.objValid then (s.objVal, s)
  else (f s.x, { s with objVal := f s.x, objValid := true })

/-- `self.invalidate()`. -/
def invalidateObj (s : SolState) : SolState := { s with objValid := false }

/-- A delta-evaluation hook override: receives the state after the swap,
the two positions, and `update_obj_val`; returns the possibly modified
state and the feasibility flag (`two_exchange_delta_eval`'s contract). -/
def Hook : Type := SolState → Nat → Nat → Bool → SolState × Bool

/-- The default `two_exchange_delta_eval`: when `update_obj_val` is set
just invalidate the cache; always feasible. -/
def defaultDeltaEval : Hook := fun s _ _ upd =>
  (if upd then invalidateObj s else s, true)

/-- The pair enumeration
`for idx, p1 in enumerate(order[:n-1]): for p2 in order[idx+1:]` —
all ordered pairs of distinct positions of `order`, first before second. -/
def pairsOf : List Nat → List (Nat × Nat)
  | [] => []
  | p :: rest => rest.map (fun q => (p, q)) ++ pairsOf rest

/-- Result of the scan over all candidate pairs. -/
inductive ScanOut where
  /-- first-improvement mode returned `True` with the swap kept -/
  | firstImp (s : SolState)
  /-- all pairs exhausted -/
  | finished (s : SolState) (bestObj : Int) (bp : Option (Nat × Nat))
  /-- the `assert` on the revert hook call failed (`AssertionError`) -/
  | assertFail
deriving DecidableEq, Repr

/-- The double loop of `two_exchange_neighborhood_search`, one candidate
pair at a time.  Mirrors the source exactly: the swap is reverted (and
the revert hook call asserted) only when the first hook call returned
feasible; on an infeasible hook result the scan continues with the swap
still applied. -/
def scanPairs (f : List Nat → Int) (better : Int → Int → Bool) (hook : Hook)
    (bestImp : Bool) (origObj : Int) :
    List (Nat × Nat) → SolState → Int → Option (Nat × Nat) → ScanOut
  | [], s, bestObj, bp => .finished s bestObj bp
  | (p1, p2) :: rest, s, bestObj, bp =>
    let s1 := { s with x := swapXs s.x p1 p2 }
    match hook s1 p1 p2 true with
    | (s2, false) => scanPairs f better hook bestImp origObj rest s2 bestObj bp
    | (s2, true) =>
      let v := (objEval f s2).1
      let s3 := (objEval f s2).2
      if better v bestObj then
        if bestImp = false then .firstImp s3
        else
          let v2 := (objEval f s3).1
          let s4 := (objEval f s3).2
          let s5 := { s4 with x := swapXs s4.x p1 p2, objVal := origObj }
          match hook s5 p1 p2 false with
          | (s6, true) => scanPairs f better hook bestImp origObj rest s6 v2 (some (p1, p2))
          | (_, false) => .assertFail
      else
        let s5 := { s3 with x := swapXs s3.x p1 p2, objVal := origObj }
        match hook s5 p1 p2 false with
        | (s6, true) => scanPairs f better hook bestImp origObj rest s6 bestObj bp
        | (_, false) => .assertFail

/-- `two_exchange_neighborhood_search(best_improvement)`:
returns `none` for an `AssertionError`, otherwise the final state and the
boolean result.  `n = self.inst.n` equals `len(self.x)` for a
`PermutationSolution`.  Note the final test is the source's `if best_p1:`
— Python truthiness, which is `False` both for `None` and for position
`0`. -/
def twoExchangeNS (f : List Nat → Int) (better : Int → Int → Bool)
    (hook : Hook) (bestImp : Bool) (ds : Nat → Nat) (s : SolState) :
    Option (SolState × Bool) :=
  let n := s.x.length
  let v0 := (objEval f s).1
  let s0 := (objEval f s).2
  let order := shuffleSeq ds (List.range n)
  match scanPairs f better hook bestImp v0 (pairsOf order) s0 v0 none with
  | .firstImp s1 => some (s1, true)
  | .assertFail => none
  | .finished s1 bestObj bp =>
    match bp with
    | some (bp1, bp2) =>
      if bp1 ≠ 0 then
        some ({ s1 with x := swapXs s1.x bp1 bp2, objVal := bestObj }, true)
      else
        some ({ s1 with objVal := v0 }, false)
    | none => some ({ s1 with objVal := v0 }, false)

section SearchLemmas

theorem objEval_x (f : List Nat → Int) (s : SolState) :
    ((objEval f s).2).x = s.x := by
  unfold objEval; split <;> rfl

theorem swapXs_getElem {l : List Nat} {p q : Nat} (hp : p < l.length)
    (hq : q < l.length) (k : Nat) (hk : k < (swapXs l p q).length) :
    (swapXs l p q)[k] =
      if k = q then l[p] else if k = p then l[q]
      else l.get ⟨k, by simpa [swapXs_length] using hk⟩ := by
  have hgp : l[p]? = some l[p] := List.getElem?_eq_getElem hp
  have hgq : l[q]? = some l[q] := List.getElem?_eq_getElem hq
  unfold swapXs
  by_cases hkq : k = q
  · subst hkq
    simp [List.getElem_set, hgp]
  · by_cases hkp : k = p
    · subst hkp
      simp [List.getElem_set, hgq, hkq, Ne.symm hkq]
    · simp [List.getElem_set, hkq, hkp, Ne.symm hkq, Ne.symm hkp]

theorem swapXs_swapXs {l : List Nat} {p q : Nat} (hp : p < l.length)
    (hq : q < l.length) : swapXs (swapXs l p q) p q = l := by
  have h1 : (swapXs l p q).length = l.length := swapXs_length l p q
  apply List.ext_getElem (by simp [swapXs_length])
  intro k hk hk2
  rw [swapXs_getElem (by omega) (by omega) k hk]
  by_cases hkq : k = q
  · subst hkq
    rw [if_pos rfl, swapXs_getElem hp hq p (by omega)]
    by_cases hpq : p = k
    · simp [hpq]
    · rw [if_neg hpq, if_pos rfl]
  · by_cases hkp : k = p
    · subst hkp
      rw [if_neg hkq, if_pos rfl, swapXs_getElem hp hq q (by omega), if_pos rfl]
    · rw [if_neg hkq, if_neg hkp, List.get_eq_getElem,
        swapXs_getElem hp hq k (by omega), if_neg hkq, if_neg hkp,
        List.get_eq_getElem]

end SearchLemmas

/-- Claim C4 (code_bug): in best-improvement mode the claim says a
recorded best pair is always re-applied, *including* pairs with first
position `0`.  The source tests `if best_p1:` which is falsy for
`best_p1 == 0`.  Failing input: minimize the first element on
`x = [1,0]` with shuffle draws producing scan order `[0,1]`: the move
swapping positions `(0,1)` improves (objective 1 → 0) and is recorded as
best, but the search returns `False` with the sequence and objective
unchanged.  The second conjunct is the contrast run with scan order
`[1,0]`: there the recorded pair is `(1,0)` with `best_p1 = 1`, and the
re-application happens exactly as the claim demands. -/
theorem C4_best_pair_lost_when_p1_zero :
    twoExchangeNS (fun l => (l.getD 0 0 : Int)) (fun a b => decide (a < b))
        defaultDeltaEval true (fun _ => 1) ⟨[1, 0], 0, false⟩ =
      some (⟨[1, 0], 1, true⟩, false) ∧
    twoExchangeNS (fun l => (l.getD 0 0 : Int)) (fun a b => decide (a < b))
        defaultDeltaEval true (fun _ => 0) ⟨[1, 0], 0, false⟩ =
      some (⟨[0, 1], 0, true⟩, true) := by
  constructor <;> rfl

/-- Claim C6 (confirmed): for `n < 2` the search returns `False` in both
modes, leaves the sequence unchanged, and never invokes the delta
evaluation hook — expressed by the result being identical for any two
hooks. -/
theorem C6_small_n_returns_false (f : List Nat → Int)
    (better : Int → Int → Bool) (h h2 : Hook) (bi : Bool) (ds : Nat → Nat)
    (s : SolState) (hn : s.x.length < 2) :
    twoExchangeNS f better h bi ds s = twoExchangeNS f better h2 bi ds s ∧
    ∃ s1, twoExchangeNS f better h bi ds s = some (s1, false) ∧ s1.x = s.x := by
  have hx : ((objEval f s).2).x = s.x := objEval_x f s
  have hn2 : s.x.length = 0 ∨ s.x.length = 1 := by omega
  rcases hn2 with hn2 | hn2 <;>
    · unfold twoExchangeNS
      rw [hn2]
      refine ⟨rfl, ⟨{ (objEval f s).2 with objVal := (objEval f s).1 }, ?_, ?_⟩⟩
      · simp [shuffleSeq, fyAux, pairsOf, scanPairs]
      · simpa using hx

/-- Witness for C6 at the concrete solution `x = [0]`. -/
theorem C6_small_n_returns_false_witness :
    (([0] : List Nat).length < 2) ∧
    (twoExchangeNS (fun _ => (0 : Int)) (fun _ _ => false) defaultDeltaEval
        true (fun _ => 0) ⟨[0], 5, true⟩ =
      twoExchangeNS (fun _ => (0 : Int)) (fun _ _ => false)
        (fun s _ _ _ => (s, false)) true (fun _ => 0) ⟨[0], 5, true⟩ ∧
    ∃ s1, twoExchangeNS (fun _ => (0 : Int)) (fun _ _ => false)
        defaultDeltaEval true (fun _ => 0) ⟨[0], 5, true⟩ = some (s1, false) ∧
      s1.x = [0]) :=
  ⟨by decide,
    C6_small_n_returns_false (fun _ => (0 : Int)) (fun _ _ => false)
      defaultDeltaEval (fun s _ _ _ => (s, false)) true (fun _ => 0)
      ⟨[0], 5, true⟩ (by decide)⟩

theorem scanPairs_assertFail_of_false_revert (f : List Nat → Int)
    (better : Int → Int → Bool) (origObj : Int) (p1 p2 : Nat)
    (rest : List (Nat × Nat)) (s : SolState) (bestObj : Int)
    (bp : Option (Nat × Nat)) :
    scanPairs f better (fun st _ _ upd => (st, upd)) true origObj
      ((p1, p2) :: rest) s bestObj bp = .assertFail := by
  simp only [scanPairs]
  by_cases hb : better ((objEval f { s with x := swapXs s.x p1 p2 }).1) bestObj
  · simp [hb]
  · simp [hb]

/-- Claim C10 (confirmed): the single revert invocation of the delta
evaluation hook (`update_obj_val = False` after swapping back) is wrapped
in `assert`, so a hook override that answers `False` on revert calls
makes the search raise `AssertionError` (modelled as `none`) instead of
continuing the scan.  Stated for the hook whose answer is exactly the
`update_obj_val` flag (feasible on tentative evaluation, `False` on every
revert) in best-improvement mode, where a revert is reached as soon as
one pair exists (`n ≥ 2`). -/
theorem C10_assert_on_false_revert (f : List Nat → Int)
    (better : Int → Int → Bool) (ds : Nat → Nat) (s : SolState)
    (hn : 2 ≤ s.x.length) :
    twoExchangeNS f better (fun st _ _ upd => (st, upd)) true ds s = none := by
  have hlen : (shuffleSeq ds (List.range s.x.length)).length = s.x.length := by
    rw [shuffleSeq_length, List.length_range]
  rcases horder : shuffleSeq ds (List.range s.x.length) with _ | ⟨a, rest⟩
  · rw [horder] at hlen; simp at hlen; omega
  rcases rest with _ | ⟨b, t⟩
  · rw [horder] at hlen; simp at hlen; omega
  simp only [twoExchangeNS, horder, pairsOf, List.map_cons, List.cons_append]
  rw [scanPairs_assertFail_of_false_revert]

/-- Witness for C10: a concrete two-element solution. -/
theorem C10_assert_on_false_revert_witness :
    2 ≤ ([0, 1] : List Nat).length ∧
    twoExchangeNS (fun _ => (0 : Int)) (fun _ _ => false)
        (fun st _ _ upd => (st, upd)) true (fun _ => 0) ⟨[0, 1], 0, true⟩ =
      none :=
  ⟨by decide,
    C10_assert_on_false_revert (fun _ => (0 : Int)) (fun _ _ => false)
      (fun _ => 0) ⟨[0, 1], 0, true⟩ (by decide)⟩

/-- Claim C5 counterexample: the claim demands that a swap rejected
because the hook signals infeasible is reverted before the scan
continues, "for every hook, including overrides that return false".  The
source reverts only inside the `if self.two_exchange_delta_eval(...)`
branch, so with the always-infeasible hook the tentative swap of the
single pair of `x = [0,1]` is left applied: the search ends with
`x = [1,0]`, not the pre-attempt `[0,1]`. -/
theorem C5_counterexample_infeasible_not_reverted :
    twoExchangeNS (fun l => (l.getD 0 0 : Int)) (fun a b => decide (a < b))
        (fun st _ _ _ => (st, false)) true (fun _ => 1) ⟨[0, 1], 0, false⟩ =
      some (⟨[1, 0], 0, true⟩, false) ∧
    ([1, 0] : List Nat) ≠ [0, 1] := by
  exact ⟨rfl, by decide⟩

/-- Claim C5 (corrected): for a tentative swap rejected by the objective
comparison — the hook accepted it (`hhf`), the hook does not move the
sequence (`hhx`) nor, on revert calls, the cached objective (`hho`), and
the new objective fails the better-than test (`hrej`) — the scan
continues on a state whose sequence and cached objective equal their
exact pre-attempt values.  (Swaps the hook rejects as infeasible are
*not* reverted by the search; the hook's own contract, "if feasible
update other solution data accordingly, else revert", delegates that
revert to the hook.) -/
theorem C5_rejected_swap_reverted (f : List Nat → Int)
    (better : Int → Int → Bool) (hook : Hook) (bi : Bool) (origObj : Int)
    (p1 p2 : Nat) (rest : List (Nat × Nat)) (s : SolState) (bestObj : Int)
    (bp : Option (Nat × Nat))
    (hhx : ∀ st a b u, ((hook st a b u).1).x = st.x)
    (hhf : ∀ st a b u, (hook st a b u).2 = true)
    (hho : ∀ st a b, ((hook st a b false).1).objVal = st.objVal)
    (hrej : better ((objEval f
        (hook { s with x := swapXs s.x p1 p2 } p1 p2 true).1).1) bestObj = false)
    (hp1 : p1 < s.x.length) (hp2 : p2 < s.x.length)
    (hobj : s.objVal = origObj) :
    ∃ s6, scanPairs f better hook bi origObj ((p1, p2) :: rest) s bestObj bp =
        scanPairs f better hook bi origObj rest s6 bestObj bp ∧
      s6.x = s.x ∧ s6.objVal = s.objVal := by
  rcases hh : hook { s with x := swapXs s.x p1 p2 } p1 p2 true with ⟨s2, b2⟩
  have hb2 : b2 = true := by
    have := hhf { s with x := swapXs s.x p1 p2 } p1 p2 true
    rw [hh] at this; exact this
  subst hb2
  have hrej2 : better ((objEval f s2).1) bestObj = false := by
    rw [hh] at hrej; exact hrej
  rcases hh5 : hook { (objEval f s2).2 with
      x := swapXs ((objEval f s2).2).x p1 p2, objVal := origObj } p1 p2 false
    with ⟨s6, b6⟩
  have hb6 : b6 = true := by
    have := hhf { (objEval f s2).2 with
      x := swapXs ((objEval f s2).2).x p1 p2, objVal := origObj } p1 p2 false
    rw [hh5] at this; exact this
  subst hb6
  have hs2x : s2.x = swapXs s.x p1 p2 := by
    have := hhx { s with x := swapXs s.x p1 p2 } p1 p2 true
    rw [hh] at this; exact this
  have hs6x : s6.x = swapXs ((objEval f s2).2).x p1 p2 := by
    have := hhx { (objEval f s2).2 with
      x := swapXs ((objEval f s2).2).x p1 p2, objVal := origObj } p1 p2 false
    rw [hh5] at this; exact this
  have hs6o : s6.objVal = origObj := by
    have := hho { (objEval f s2).2 with
      x := swapXs ((objEval f s2).2).x p1 p2, objVal := origObj } p1 p2
    rw [hh5] at this; exact this
  refine ⟨s6, ?_, ?_, ?_⟩
  · simp only [scanPairs]
    rw [hh]
    simp only [hrej2]
    rw [hh5]
    simp
  · rw [hs6x, objEval_x, hs2x]
    exact swapXs_swapXs hp1 hp2
  · rw [hs6o, hobj]

/-- Witness for C5: the default hook, a never-better comparator, and the
single pair `(0,1)` of a two-element solution. -/
theorem C5_rejected_swap_reverted_witness :
    ∃ s6, scanPairs (fun _ => (0 : Int)) (fun _ _ => false) defaultDeltaEval
        true 7 [(0, 1)] ⟨[0, 1], 7, true⟩ 0 none =
      scanPairs (fun _ => (0 : Int)) (fun _ _ => false) defaultDeltaEval
        true 7 [] s6 0 none ∧
      s6.x = (⟨[0, 1], 7, true⟩ : SolState).x ∧
      s6.objVal = (⟨[0, 1], 7, true⟩ : SolState).objVal :=
  C5_rejected_swap_reverted (fun _ => (0 : Int)) (fun _ _ => false)
    defaultDeltaEval true 7 0 1 [] ⟨[0, 1], 7, true⟩ 0 none
    (fun st a b u => by cases u <;> rfl)
    (fun st a b u => by cases u <;> rfl)
    (fun st a b => rfl)
    rfl (by decide) (by decide) rfl

/-- Claim C8 counterexample: the claim says each of the two cut points is
drawn over `[0,n)`, every value attainable.  The source draws the second
cut with `random.randrange(size - 1)`, so for `n = 2` the value `1 ∈ [0,2)`
is never attained by the second draw (`d % 1 = 0` for every draw `d`). -/
theorem C8_counterexample_second_draw_range :
    ¬ ∃ d : Nat, pmxSecondDraw 2 d = 1 := by
  rintro ⟨d, h⟩
  simp [pmxSecondDraw, Nat.mod_one] at h

/-- Claim C8 (corrected): for `n ≥ 2`, the first cut draw attains every
value in `[0,n)` but the second only every value in `[0,n-1)`; when the
two draws are equal the second (`end`) is incremented by one; and the
cut pair actually used always satisfies `begin < end ≤ n-1`, so the
window `[begin,end)` lies inside `[0,n)`. -/
theorem C8_pmx_cut_points (n : Nat) (hn : 2 ≤ n) :
    (∀ v < n, ∃ d, pmxFirstDraw n d = v) ∧
    (∀ v < n - 1, ∃ d, pmxSecondDraw n d = v) ∧
    (∀ d0 d1, pmxFirstDraw n d0 = pmxSecondDraw n d1 →
      pmxCuts n d0 d1 = some (pmxFirstDraw n d0, pmxFirstDraw n d0 + 1)) ∧
    (∀ d0 d1, ∃ b e, pmxCuts n d0 d1 = some (b, e) ∧ b < e ∧ e ≤ n - 1) := by
  have hn0 : n ≠ 0 := by omega
  have hn1 : n - 1 ≠ 0 := by omega
  refine ⟨?_, ?_, ?_, ?_⟩
  · intro v hv
    exact ⟨v, Nat.mod_eq_of_lt hv⟩
  · intro v hv
    exact ⟨v, Nat.mod_eq_of_lt hv⟩
  · intro d0 d1 heq
    simp only [pmxCuts, pmxFirstDraw, pmxSecondDraw] at heq ⊢
    rw [if_neg hn0, if_neg hn1, if_pos heq, if_neg (by omega), heq]
  · intro d0 d1
    have hb : d0 % n < n := Nat.mod_lt _ (by omega)
    have he : d1 % (n - 1) < n - 1 := Nat.mod_lt _ (by omega)
    simp only [pmxCuts, pmxFirstDraw, pmxSecondDraw]
    rw [if_neg hn0, if_neg hn1]
    by_cases heq : d0 % n = d1 % (n - 1)
    · rw [if_pos heq, if_neg (by omega)]
      exact ⟨d0 % n, d1 % (n - 1) + 1, rfl, by omega, by omega⟩
    · rw [if_neg heq]
      by_cases hgt : d0 % n > d1 % (n - 1)
      · rw [if_pos hgt]
        exact ⟨d1 % (n - 1), d0 % n, rfl, by omega, by omega⟩
      · rw [if_neg hgt]
        exact ⟨d0 % n, d1 % (n - 1), rfl, by omega, by omega⟩

/-- Witness for C8 at `n = 3`. -/
theorem C8_pmx_cut_points_witness :
    (∀ v < 3, ∃ d, pmxFirstDraw 3 d = v) ∧
    (∀ v < 3 - 1, ∃ d, pmxSecondDraw 3 d = v) ∧
    (∀ d0 d1, pmxFirstDraw 3 d0 = pmxSecondDraw 3 d1 →
      pmxCuts 3 d0 d1 = some (pmxFirstDraw 3 d0, pmxFirstDraw 3 d0 + 1)) ∧
    (∀ d0 d1, ∃ b e, pmxCuts 3 d0 d1 = some (b, e) ∧ b < e ∧ e ≤ 3 - 1) :=
  C8_pmx_cut_points 3 (by decide)

/-! ## Edge recombination -/

/-- `append_if_not_contained(nbs, nb)`. -/
def appendIfNotContained (nbs : List Nat) (nb : Nat) : List Nat :=
  if nb ∈ nbs then nbs else nbs ++ [nb]

/-- One parent's pass of the adjacency-list construction: for each
position `i`, append (deduplicated) the cyclic neighbors
`xs[(i-1) % size]` and `xs[(i+1) % size]` to `adj_lists[xs[i]]`
(`(i-1) % size` in Python is `(i + size - 1) % size`). -/
def addParentAdj (xs : List Nat) (A : Nat → List Nat) : Nat → List Nat :=
  (List.range xs.length).foldl (fun A i =>
    Function.update A (xs.getD i 0)
      (appendIfNotContained
        (appendIfNotContained (A (xs.getD i 0))
          (xs.getD ((i + xs.length - 1) % xs.length) 0))
        (xs.getD ((i + 1) % xs.length) 0))) A

/-- The full `adj_lists` built from both parents. -/
def initAdj (aX bX : List Nat) : Nat → List Nat :=
  addParentAdj bX (addParentAdj aX (fun _ => []))

/-- Loop state of `edge_recombination`: adjacency lists, the `unvisited`
set (as the ordered list of its elements), the child sequence, the
current element and the draw counter. -/
structure ERSt where
  adj : Nat → List Nat
  unvisited : List Nat
  child : List Nat
  cur : Nat
  t : Nat

/-- The removal pass
`for j in adj_lists[elem]: adj_lists[j].remove(elem)`. -/
def removeFromAdj (adj : Nat → List Nat) (cur : Nat) : Nat → List Nat :=
  (adj cur).foldl (fun A j => Function.update A j ((A j).erase cur)) adj

/-- The candidate computation over `lst = adj_lists[elem]`:
`candidates = [lst[0]]`, `degree = len(adj_lists[candidates[0]])`, then a
scan of the remaining neighbors keeping those of minimal degree — with
the source's quirk that `degree` is fixed at the first candidate's degree
and never lowered when a strictly smaller one resets the candidate
list. -/
def selectCandidates (adj : Nat → List Nat) (lst : List Nat) : List Nat :=
  lst.tail.foldl (fun cands e2 =>
    if (adj e2).length < (adj (lst.headD 0)).length then [e2]
    else if (adj e2).length = (adj (lst.headD 0)).length then cands ++ [e2]
    else cands) [lst.headD 0]

/-- One iteration of the `for i in range(size-1)` loop of
`edge_recombination`: place `cur` at position `i`, remove it from
`unvisited` and from its neighbors' adjacency lists, then select the next
element — uniformly from `unvisited` if `cur`'s list is empty, otherwise
a minimum-degree neighbor via `selectCandidates` with a uniform
tie-break, followed by clearing `cur`'s list. -/
def erStep (ds : Nat → Nat) (st : ERSt) (i : Nat) : ERSt :=
  let child := st.child.set i st.cur
  let unvisited := st.unvisited.erase st.cur
  let adj := removeFromAdj st.adj st.cur
  if adj st.cur = [] then
    { adj := adj, unvisited := unvisited, child := child,
      cur := unvisited.getD (ds st.t % unvisited.length) 0, t := st.t + 1 }
  else
    let candidates := selectCandidates adj (adj st.cur)
    { adj := Function.update adj st.cur [], unvisited := unvisited,
      child := child,
      cur := candidates.getD (ds st.t % candidates.length) 0, t := st.t + 1 }

/-- State before the placement loop of `edge_recombination`: full
adjacency lists, `unvisited = set(range(size))`, the child cloned from
the first parent, and the uniformly drawn start element
`elem = random.randrange(size)`. -/
def erStart (aX bX : List Nat) (ds : Nat → Nat) : ERSt :=
  { adj := initAdj aX bX, unvisited := List.range aX.length, child := aX, cur := ds 0 % aX.length, t := 1 }

/-- `edge_recombination`: `none` models the `ValueError` of
`random.randrange(0)` for an empty sequence. -/
def edgeRecomb (aX bX : List Nat) (ds : Nat → Nat) : Option (List Nat) :=
  let size := aX.length
  if size = 0 then none
  else
    let stF := (List.range (size - 1)).foldl (erStep ds) (erStart aX bX ds)
    some (stF.child.set (size - 1) stF.cur)

/-! ## Frame behaviour of the crossover operators

The three crossover operators mutate only operator-local state: PMX
assigns to `child.x[i]`, `child.x[j]` and `pos[...]` (lines 116-126),
cycle crossover to `group[...]`, `child.x[...]` (lines 143-159), and
edge recombination to `adj_lists[...]`, `unvisited` and `child.x[...]`
(lines 181-212); no statement assigns to `self.x` or `other.x`.
Threading the pair of parent sequences through each operator therefore
returns them unchanged next to the child. -/

/-- The two parent sequences (`self.x`, `other.x`) as mutable state. -/
structure Parents where
  ax : List Nat
  bx : List Nat
deriving DecidableEq

/-- `partially_mapped_crossover` with the parents' state threaded through:
final parents' state next to the produced child. -/
def pmxOnParents (P : Parents) (ds : Nat → Nat) : Parents × Option (List Nat) :=
  (P, pmx P.ax P.bx ds)

/-- `cycle_crossover` with the parents' state threaded through. -/
def cycleOnParents (P : Parents) : Parents × List Nat :=
  (P, cycleCrossover P.ax P.bx)

/-- `edge_recombination` with the parents' state threaded through. -/
def edgeOnParents (P : Parents) (ds : Nat → Nat) : Parents × Option (List Nat) :=
  (P, edgeRecomb P.ax P.bx ds)

/-- Claim C7 (confirmed): for every pair of parents and every draw
sequence, each crossover operator leaves both parents' sequences exactly
unchanged — the final threaded parent state equals the initial one (only
the separately returned child is built by mutation). -/
theorem C7_crossovers_preserve_parents (P : Parents) (ds : Nat → Nat) :
    (pmxOnParents P ds).1 = P ∧ (cycleOnParents P).1 = P ∧
    (edgeOnParents P ds).1 = P :=
  ⟨rfl, rfl, rfl⟩

/-- Witness for C7 at concrete parents. -/
theorem C7_crossovers_preserve_parents_witness :
    (pmxOnParents ⟨[0, 1, 2], [2, 0, 1]⟩ (fun _ => 0)).1 = ⟨[0, 1, 2], [2, 0, 1]⟩ ∧
    (cycleOnParents ⟨[0, 1, 2], [2, 0, 1]⟩).1 = ⟨[0, 1, 2], [2, 0, 1]⟩ ∧
    (edgeOnParents ⟨[0, 1, 2], [2, 0, 1]⟩ (fun _ => 0)).1 = ⟨[0, 1, 2], [2, 0, 1]⟩ :=
  C7_crossovers_preserve_parents ⟨[0, 1, 2], [2, 0, 1]⟩ (fun _ => 0)

/-! ## Permutation preservation: shared machinery -/

section FoldChar

variable {β : Type}

/-- Characterization of a fold of keyed updates when the keys of the
index list are pairwise distinct: each cell of the final map is the
one-step image of the initial cell for the unique index hitting it, or
untouched. -/
theorem foldl_update_char (key : Nat → Nat) (g : β → Nat → β) :
    ∀ (L : List Nat) (A0 : Nat → β) (u : Nat),
      L.Nodup → (∀ i ∈ L, ∀ j ∈ L, key i = key j → i = j) →
      (L.foldl (fun A i => Function.update A (key i) (g (A (key i)) i)) A0) u =
        match L.find? (fun i => key i == u) with
        | some i => g (A0 u) i
        | none => A0 u
  | [], A0, u, _, _ => rfl
  | i0 :: L, A0, u, hnd, hinj => by
    have hndL : L.Nodup := (List.nodup_cons.1 hnd).2
    have hi0L : i0 ∉ L := (List.nodup_cons.1 hnd).1
    have hinjL : ∀ i ∈ L, ∀ j ∈ L, key i = key j → i = j := fun i hi j hj =>
      hinj i (List.mem_cons_of_mem _ hi) j (List.mem_cons_of_mem _ hj)
    simp only [List.foldl_cons]
    rw [foldl_update_char key g L _ u hndL hinjL]
    by_cases hku : key i0 = u
    · have hfind : L.find? (fun i => key i == u) = none := by
        rw [List.find?_eq_none]
        intro j hj hbeq
        have : key j = u := by simpa using hbeq
        have : j = i0 := hinj j (List.mem_cons_of_mem _ hj) i0 (List.mem_cons_self _ _)
          (by rw [this, hku])
        exact hi0L (this ▸ hj)
      rw [hfind]
      have hfind2 : (i0 :: L).find? (fun i => key i == u) = some i0 := by
        simp [List.find?_cons, hku]
      rw [hfind2]
      subst hku
      rw [Function.update_same]
    · have hupd : Function.update A0 (key i0) (g (A0 (key i0)) i0) u = A0 u :=
        Function.update_noteq (fun h => hku h.symm) _ _
      rw [hupd]
      have hfind2 : (i0 :: L).find? (fun i => key i == u) =
          L.find? (fun i => key i == u) := by
        simp [List.find?_cons, hku]
      rw [hfind2]

end FoldChar

section BuildPosLemmas

theorem isPermList_nodup {l : List Nat} (h : IsPermList l) : l.Nodup :=
  h.nodup_iff.2 (List.nodup_range _)

theorem isPermList_getD_lt {l : List Nat} (h : IsPermList l) {i : Nat}
    (hi : i < l.length) : l.getD i 0 < l.length := by
  rw [List.getD_eq_getElem l 0 hi]
  have : l[i] ∈ l := List.getElem_mem hi
  exact List.mem_range.1 (h.mem_iff.1 this)

theorem isPermList_getD_inj {l : List Nat} (h : IsPermList l) {i j : Nat}
    (hi : i < l.length) (hj : j < l.length)
    (heq : l.getD i 0 = l.getD j 0) : i = j := by
  rw [List.getD_eq_getElem l 0 hi, List.getD_eq_getElem l 0 hj] at heq
  exact (List.Nodup.getElem_inj_iff (isPermList_nodup h)).1 heq

/-- `buildPos` inverts a permutation list: position of the value at `i`
is `i`. -/
theorem buildPos_getD {l : List Nat} (h : IsPermList l) {i : Nat}
    (hi : i < l.length) : buildPos l (l.getD i 0) = i := by
  unfold buildPos
  rw [foldl_update_char (fun i => l.getD i 0) (fun _ i => i) (List.range l.length)
    _ _ (List.nodup_range _) ?hinj]
  case hinj =>
    intro a ha b hb
    exact isPermList_getD_inj h (List.mem_range.1 ha) (List.mem_range.1 hb)
  rcases hfind : (List.range l.length).find? (fun j => l.getD j 0 == l.getD i 0)
    with _ | j
  · exfalso
    rw [List.find?_eq_none] at hfind
    exact hfind i (List.mem_range.2 hi) (by simp)
  · have hj1 := List.find?_some hfind
    have hj2 := List.mem_of_find?_eq_some hfind
    have : l.getD j 0 = l.getD i 0 := by simpa using hj1
    exact isPermList_getD_inj h (List.mem_range.1 hj2) hi this

/-- Full inverse property of `buildPos` on a permutation list. -/
theorem buildPos_inverse {l : List Nat} (h : IsPermList l) {v : Nat}
    (hv : v < l.length) :
    buildPos l v < l.length ∧ l.getD (buildPos l v) 0 = v := by
  have hvl : v ∈ l := h.mem_iff.2 (List.mem_range.2 hv)
  obtain ⟨i, hi, hiv⟩ := mem_iff_exists_getElem.1 hvl
  have hgd : l.getD i 0 = v := by rw [List.getD_eq_getElem l 0 hi, hiv]
  have := buildPos_getD h hi
  rw [hgd] at this
  exact ⟨this ▸ hi, by rw [this, hgd]⟩

end BuildPosLemmas

section FancyAssign

theorem getD_set_lt (c : List Nat) (i a k : Nat) (hk : k < c.length) :
    (c.set i a).getD k 0 = if i = k then a else c.getD k 0 := by
  have hk2 : k < (c.set i a).length := by rw [List.length_set]; exact hk
  rw [List.getD_eq_getElem _ 0 hk2, List.getElem_set]
  by_cases h : i = k
  · rw [if_pos h, if_pos h]
  · rw [if_neg h, if_neg h, List.getD_eq_getElem _ 0 hk]

theorem foldl_set_length (p : Nat → Nat) (bX : List Nat) :
    ∀ (L : List Nat) (c : List Nat),
      (L.foldl (fun c v => c.set (p v) (bX.getD (p v) 0)) c).length = c.length
  | [], _ => rfl
  | v0 :: L, c => by
    simp only [List.foldl_cons]
    rw [foldl_set_length p bX L _, List.length_set]

theorem foldl_set_getD (p : Nat → Nat) (bX : List Nat) :
    ∀ (L : List Nat) (c : List Nat) (k : Nat), k < c.length →
      (L.foldl (fun c v => c.set (p v) (bX.getD (p v) 0)) c).getD k 0 =
        if ∃ v ∈ L, p v = k then bX.getD k 0 else c.getD k 0
  | [], c, k, hk => by simp
  | v0 :: L, c, k, hk => by
    simp only [List.foldl_cons]
    rw [foldl_set_getD p bX L _ k (by rw [List.length_set]; exact hk)]
    by_cases hL : ∃ v ∈ L, p v = k
    · rw [if_pos hL, if_pos ⟨hL.choose, List.mem_cons_of_mem _ hL.choose_spec.1,
        hL.choose_spec.2⟩]
    · rw [if_neg hL]
      by_cases h0 : p v0 = k
      · rw [if_pos ⟨v0, List.mem_cons_self _ _, h0⟩]
        rw [getD_set_lt c _ _ k hk, if_pos h0, h0]
      · rw [if_neg (by
          rintro ⟨v, hv, hpv⟩
          rcases List.mem_cons.1 hv with rfl | hv
          · exact h0 hpv
          · exact hL ⟨v, hv, hpv⟩)]
        rw [getD_set_lt c _ _ k hk, if_neg h0]

/-- For a permutation first parent, the fancy assignment
`child.x[pos] = other.x[pos]` overwrites every cell: the child becomes
(elementwise) the other parent. -/
theorem fancyAssignPos_eq {aX bX c : List Nat} (ha : IsPermList aX)
    (hb : bX.length = aX.length) (hc : c.length = aX.length) :
    fancyAssignPos (buildPos aX) bX c = bX := by
  unfold fancyAssignPos
  apply List.ext_getElem
  · rw [foldl_set_length]; omega
  · intro k h1 h2
    have hkc : k < c.length := by rwa [foldl_set_length] at h1
    have hgd := foldl_set_getD (buildPos aX) bX (List.range c.length) c k hkc
    have hkn : k < aX.length := by omega
    have hex : ∃ v ∈ List.range c.length, buildPos aX v = k :=
      ⟨aX.getD k 0, List.mem_range.2 (by
          have := isPermList_getD_lt ha hkn; omega),
        buildPos_getD ha hkn⟩
    rw [if_pos hex] at hgd
    rw [← List.getD_eq_getElem _ 0 h1, ← List.getD_eq_getElem bX 0 h2]
    exact hgd

/-- The source's `cycle_crossover` returns either an unchanged copy of
the first parent (when the loop never meets an odd value) or a full copy
of the second parent. -/
theorem cycleCrossover_eq_or {aX bX : List Nat} (ha : IsPermList aX)
    (hb : bX.length = aX.length) :
    cycleCrossover aX bX = aX ∨ cycleCrossover aX bX = bX := by
  have main : ∀ (L : List Nat) (c : List Nat), c = aX ∨ c = bX →
      (L.foldl (fun child i =>
        if child.getD i 0 % 2 = 1 then fancyAssignPos (buildPos aX) bX child
        else child) c) = aX ∨
      (L.foldl (fun child i =>
        if child.getD i 0 % 2 = 1 then fancyAssignPos (buildPos aX) bX child
        else child) c) = bX := by
    intro L
    induction L with
    | nil => intro c hc; exact hc
    | cons i0 L ih =>
      intro c hc
      simp only [List.foldl_cons]
      apply ih
      by_cases hcond : c.getD i0 0 % 2 = 1
      · rw [if_pos hcond]
        right
        rcases hc with rfl | rfl
        · exact fancyAssignPos_eq ha hb rfl
        · exact fancyAssignPos_eq ha hb hb
      · rw [if_neg hcond]; exact hc
  simpa only [cycleCrossover] using main (List.range aX.length) aX (Or.inl rfl)

theorem cycleCrossover_isPerm {aX bX : List Nat} (ha : IsPermList aX)
    (hb : IsPermList bX) (hlen : bX.length = aX.length) :
    IsPermList (cycleCrossover aX bX) ∧
    (cycleCrossover aX bX).length = aX.length := by
  rcases cycleCrossover_eq_or ha hlen with h | h <;> rw [h]
  · exact ⟨ha, rfl⟩
  · exact ⟨hb, hlen⟩

end FancyAssign

section PmxPerm

theorem pmxCuts_bounds {n : Nat} (hn : 2 ≤ n) (d0 d1 : Nat) :
    ∃ b e, pmxCuts n d0 d1 = some (b, e) ∧ b < e ∧ e ≤ n - 1 := by
  have hn0 : n ≠ 0 := by omega
  have hn1 : n - 1 ≠ 0 := by omega
  have hb : d0 % n < n := Nat.mod_lt _ (by omega)
  have he : d1 % (n - 1) < n - 1 := Nat.mod_lt _ (by omega)
  simp only [pmxCuts, pmxFirstDraw, pmxSecondDraw]
  rw [if_neg hn0, if_neg hn1]
  by_cases heq : d0 % n = d1 % (n - 1)
  · rw [if_pos heq, if_neg (by omega)]
    exact ⟨d0 % n, d1 % (n - 1) + 1, rfl, by omega, by omega⟩
  · rw [if_neg heq]
    by_cases hgt : d0 % n > d1 % (n - 1)
    · rw [if_pos hgt]
      exact ⟨d1 % (n - 1), d0 % n, rfl, by omega, by omega⟩
    · rw [if_neg hgt]
      exact ⟨d0 % n, d1 % (n - 1), rfl, by omega, by omega⟩

theorem getD_swapXs {l : List Nat} {p q : Nat} (hp : p < l.length)
    (hq : q < l.length) (k : Nat) (hk : k < l.length) :
    (swapXs l p q).getD k 0 =
      if k = q then l.getD p 0 else if k = p then l.getD q 0
      else l.getD k 0 := by
  have hk2 : k < (swapXs l p q).length := by rw [swapXs_length]; exact hk
  rw [List.getD_eq_getElem _ 0 hk2, swapXs_getElem hp hq k hk2]
  by_cases hkq : k = q
  · rw [if_pos hkq, if_pos hkq, List.getD_eq_getElem _ 0 hp]
  · rw [if_neg hkq, if_neg hkq]
    by_cases hkp : k = p
    · rw [if_pos hkp, if_pos hkp, List.getD_eq_getElem _ 0 hq]
    · rw [if_neg hkp, if_neg hkp, List.getD_eq_getElem _ 0 hk,
        List.get_eq_getElem]

/-- Effect of one non-trivial PMX exchange (`i ≠ j`): the child is
swapped at `i`/`j` and so stays a permutation; the updated `pos` is its
inverse again. -/
theorem pmx_exchange_inv {child : List Nat} {pos : Nat → Nat} {n i e j e2 : Nat}
    (hcl : child.length = n) (hcp : IsPermList child)
    (hinv : ∀ v, v < n → pos v < n ∧ child.getD (pos v) 0 = v)
    (hiL : i < n) (helt : e < n) (hj : j = pos e) (he2 : e2 = child.getD i 0)
    (hije : i ≠ j) :
    ((child.set i e).set j e2).length = n ∧
    IsPermList ((child.set i e).set j e2) ∧
    (∀ v, v < n → (Function.update (Function.update pos e i) e2 j) v < n ∧
      ((child.set i e).set j e2).getD
        ((Function.update (Function.update pos e i) e2 j) v) 0 = v) := by
  have hjlt : j < n := hj ▸ (hinv e helt).1
  have hjval : child.getD j 0 = e := by rw [hj]; exact (hinv e helt).2
  have hswap : (child.set i e).set j e2 = swapXs child i j := by
    unfold swapXs
    rw [hjval, he2]
  have he2lt : e2 < n := by
    rw [he2]
    have := isPermList_getD_lt hcp (show i < child.length by omega)
    omega
  have hne : e ≠ e2 := by
    intro hcontra
    apply hije
    symm
    apply isPermList_getD_inj hcp (show j < child.length by omega)
      (show i < child.length by omega)
    rw [hjval, hcontra, he2]
  rw [hswap]
  refine ⟨by rw [swapXs_length]; exact hcl,
    swapXs_isPerm (by omega) (by omega) hcp, ?_⟩
  intro v hv
  by_cases hv1 : v = e
  · subst hv1
    rw [Function.update_noteq hne, Function.update_same]
    refine ⟨hiL, ?_⟩
    rw [getD_swapXs (by omega) (by omega) i (by omega), if_neg hije, if_pos rfl]
    exact hjval
  · by_cases hv2 : v = e2
    · subst hv2
      rw [Function.update_same]
      refine ⟨hjlt, ?_⟩
      rw [getD_swapXs (by omega) (by omega) j (by omega), if_pos rfl, he2]
    · rw [Function.update_noteq hv2, Function.update_noteq hv1]
      obtain ⟨hplt, hpval⟩ := hinv v hv
      refine ⟨hplt, ?_⟩
      have hpj : pos v ≠ j := by
        intro hcontra
        rw [hcontra, hjval] at hpval
        exact hv1 hpval.symm
      have hpi : pos v ≠ i := by
        intro hcontra
        rw [hcontra, ← he2] at hpval
        exact hv2 hpval.symm
      rw [getD_swapXs (by omega) (by omega) (pos v) (by omega),
        if_neg hpj, if_neg hpi]
      exact hpval

/-- Invariant of the PMX exchange loop: the child stays a permutation of
the proper length and `pos` stays its inverse. -/
theorem pmxLoop_inv {bX : List Nat} {n : Nat} (hblen : bX.length = n)
    (hb : IsPermList bX) :
    ∀ (L : List Nat) (child : List Nat) (pos : Nat → Nat),
      (∀ i ∈ L, i < n) → child.length = n → IsPermList child →
      (∀ v, v < n → pos v < n ∧ child.getD (pos v) 0 = v) →
      (L.foldl (pmxStep bX) (child, pos)).1.length = n ∧
        IsPermList (L.foldl (pmxStep bX) (child, pos)).1
  | [], child, pos, _, hcl, hcp, _ => ⟨hcl, hcp⟩
  | i :: L, child, pos, hmem, hcl, hcp, hinv => by
    simp only [List.foldl_cons]
    have hiL : i < n := hmem i (List.mem_cons_self _ _)
    have hmemL : ∀ a ∈ L, a < n := fun a ha => hmem a (List.mem_cons_of_mem _ ha)
    have helt : bX.getD i 0 < n := by
      have := isPermList_getD_lt hb (show i < bX.length by omega)
      omega
    by_cases hije : i = pos (bX.getD i 0)
    · have hstep : pmxStep bX (child, pos) i = (child, pos) := by
        simp only [pmxStep]
        rw [if_neg (not_not_intro hije)]
      rw [hstep]
      exact pmxLoop_inv hblen hb L child pos hmemL hcl hcp hinv
    · have hstep : pmxStep bX (child, pos) i =
          ((child.set i (bX.getD i 0)).set (pos (bX.getD i 0)) (child.getD i 0),
            Function.update (Function.update pos (bX.getD i 0) i)
              (child.getD i 0) (pos (bX.getD i 0))) := by
        simp only [pmxStep]
        rw [if_pos hije]
      rw [hstep]
      obtain ⟨h1, h2, h3⟩ := pmx_exchange_inv (n := n) hcl hcp hinv hiL helt
        rfl rfl hije
      exact pmxLoop_inv hblen hb L _ _ hmemL h1 h2 h3

/-- PMX produces a permutation child of the parents' common length, for
every draw sequence, whenever `n ≥ 2`. -/
theorem pmx_isPerm {aX bX : List Nat} (ds : Nat → Nat) (ha : IsPermList aX)
    (hb : IsPermList bX) (hlen : bX.length = aX.length) (hn : 2 ≤ aX.length) :
    ∃ c, pmx aX bX ds = some c ∧ IsPermList c ∧ c.length = aX.length := by
  obtain ⟨b, e, hcuts, hbe, hen⟩ := pmxCuts_bounds hn (ds 0) (ds 1)
  simp only [pmx, hcuts]
  refine ⟨_, rfl, ?_⟩
  have hmem : ∀ i ∈ List.range' b (e - b), i < aX.length := by
    intro i hi
    rw [List.mem_range'_1] at hi
    omega
  have := pmxLoop_inv hlen hb (List.range' b (e - b)) aX (buildPos aX) hmem rfl ha
    (fun v hv => buildPos_inverse ha hv)
  exact ⟨this.2, this.1⟩

end PmxPerm

section SearchPerm

theorem pairsOf_mem : ∀ {l : List Nat} {pq : Nat × Nat},
    pq ∈ pairsOf l → pq.1 ∈ l ∧ pq.2 ∈ l
  | [], pq, h => by simp [pairsOf] at h
  | p :: rest, pq, h => by
    simp only [pairsOf, List.mem_append, List.mem_map] at h
    rcases h with ⟨q, hq, rfl⟩ | h
    · exact ⟨List.mem_cons_self _ _, List.mem_cons_of_mem _ hq⟩
    · obtain ⟨h1, h2⟩ := pairsOf_mem h
      exact ⟨List.mem_cons_of_mem _ h1, List.mem_cons_of_mem _ h2⟩

/-- With the default delta-evaluation hook the scan either stops at a
first-improvement state (one applied swap from a scanned pair) or
finishes with the sequence exactly restored, the recorded best pair
being one of the scanned pairs (or the inherited one); it never hits the
assertion. -/
theorem scanPairs_default_cases (f : List Nat → Int)
    (better : Int → Int → Bool) (bi : Bool) (origObj : Int) :
    ∀ (pairs : List (Nat × Nat)) (s : SolState) (bestObj : Int)
      (bp : Option (Nat × Nat)),
      (∀ pq ∈ pairs, pq.1 < s.x.length ∧ pq.2 < s.x.length) →
      (∃ p1 p2 s1, (p1, p2) ∈ pairs ∧
        scanPairs f better defaultDeltaEval bi origObj pairs s bestObj bp =
          .firstImp s1 ∧ s1.x = swapXs s.x p1 p2) ∨
      (∃ s1 bo bp1,
        scanPairs f better defaultDeltaEval bi origObj pairs s bestObj bp =
          .finished s1 bo bp1 ∧ s1.x = s.x ∧
        (bp1 = bp ∨ ∃ pq ∈ pairs, bp1 = some pq))
  | [], s, bestObj, bp, _ => Or.inr ⟨s, bestObj, bp, rfl, rfl, Or.inl rfl⟩
  | (p1, p2) :: rest, s, bestObj, bp, hmem => by
    obtain ⟨hp1, hp2⟩ := hmem (p1, p2) (List.mem_cons_self _ _)
    have hmemR : ∀ pq ∈ rest, pq.1 < s.x.length ∧ pq.2 < s.x.length :=
      fun pq hpq => hmem pq (List.mem_cons_of_mem _ hpq)
    simp only [scanPairs, defaultDeltaEval, eq_self_iff_true, if_true,
      Bool.false_eq_true, if_false]
    have hx2 : (invalidateObj { s with x := swapXs s.x p1 p2 }).x =
        swapXs s.x p1 p2 := rfl
    by_cases hbet : better
        ((objEval f (invalidateObj { s with x := swapXs s.x p1 p2 })).1) bestObj
    · rw [if_pos hbet]
      by_cases hbi : bi = false
      · rw [if_pos hbi]
        refine Or.inl ⟨p1, p2, _, List.mem_cons_self _ _, rfl, ?_⟩
        rw [objEval_x, hx2]
      · rw [if_neg hbi]
        -- best-improvement: revert and continue with the pair recorded
        set s3 := (objEval f (invalidateObj { s with x := swapXs s.x p1 p2 })).2
          with hs3
        have hs3x : s3.x = swapXs s.x p1 p2 := by rw [hs3, objEval_x, hx2]
        set s4 := (objEval f s3).2 with hs4
        have hs4x : s4.x = swapXs s.x p1 p2 := by rw [hs4, objEval_x, hs3x]
        have hs5x : ({ s4 with x := swapXs s4.x p1 p2, objVal := origObj } : SolState).x = s.x := by
          show swapXs s4.x p1 p2 = s.x
          rw [hs4x]
          exact swapXs_swapXs hp1 hp2
        have hmemR5 : ∀ pq ∈ rest, pq.1 < ({ s4 with x := swapXs s4.x p1 p2, objVal := origObj } : SolState).x.length ∧ pq.2 < ({ s4 with x := swapXs s4.x p1 p2, objVal := origObj } : SolState).x.length := by
          rw [hs5x]; exact hmemR
        rcases scanPairs_default_cases f better bi origObj rest _ _ _ hmemR5
          with ⟨q1, q2, s1, hq, hrun, hx⟩ | ⟨s1, bo, bp1, hrun, hx, hbp⟩
        · refine Or.inl ⟨q1, q2, s1, List.mem_cons_of_mem _ hq, hrun, ?_⟩
          rw [hx, hs5x]
        · refine Or.inr ⟨s1, bo, bp1, hrun, by rw [hx, hs5x], ?_⟩
          rcases hbp with rfl | ⟨pq, hpq, rfl⟩
          · exact Or.inr ⟨(p1, p2), List.mem_cons_self _ _, rfl⟩
          · exact Or.inr ⟨pq, List.mem_cons_of_mem _ hpq, rfl⟩
    · rw [if_neg hbet]
      set s3 := (objEval f (invalidateObj { s with x := swapXs s.x p1 p2 })).2
        with hs3
      have hs3x : s3.x = swapXs s.x p1 p2 := by rw [hs3, objEval_x, hx2]
      have hs5x : ({ s3 with x := swapXs s3.x p1 p2, objVal := origObj } : SolState).x = s.x := by
        show swapXs s3.x p1 p2 = s.x
        rw [hs3x]
        exact swapXs_swapXs hp1 hp2
      have hmemR5 : ∀ pq ∈ rest, pq.1 < ({ s3 with x := swapXs s3.x p1 p2, objVal := origObj } : SolState).x.length ∧ pq.2 < ({ s3 with x := swapXs s3.x p1 p2, objVal := origObj } : SolState).x.length := by
        rw [hs5x]; exact hmemR
      rcases scanPairs_default_cases f better bi origObj rest _ _ _ hmemR5
        with ⟨q1, q2, s1, hq, hrun, hx⟩ | ⟨s1, bo, bp1, hrun, hx, hbp⟩
      · refine Or.inl ⟨q1, q2, s1, List.mem_cons_of_mem _ hq, hrun, ?_⟩
        rw [hx, hs5x]
      · refine Or.inr ⟨s1, bo, bp1, hrun, by rw [hx, hs5x], ?_⟩
        rcases hbp with rfl | ⟨pq, hpq, rfl⟩
        · exact Or.inl rfl
        · exact Or.inr ⟨pq, List.mem_cons_of_mem _ hpq, rfl⟩

/-- The 2-exchange neighborhood search with the default hook always
terminates normally and keeps the sequence a permutation of the same
length. -/
theorem twoExchangeNS_default_isPerm (f : List Nat → Int)
    (better : Int → Int → Bool) (bi : Bool) (ds : Nat → Nat) (s : SolState)
    (hs : IsPermList s.x) :
    ∃ s1 r, twoExchangeNS f better defaultDeltaEval bi ds s = some (s1, r) ∧
      IsPermList s1.x ∧ s1.x.length = s.x.length := by
  have horderP : IsPermList (shuffleSeq ds (List.range s.x.length)) := by
    apply shuffleSeq_isPerm
    unfold IsPermList
    rw [List.length_range]
  have horderL : (shuffleSeq ds (List.range s.x.length)).length = s.x.length := by
    rw [shuffleSeq_length, List.length_range]
  have hmem : ∀ pq ∈ pairsOf (shuffleSeq ds (List.range s.x.length)),
      pq.1 < ((objEval f s).2).x.length ∧ pq.2 < ((objEval f s).2).x.length := by
    intro pq hpq
    obtain ⟨h1, h2⟩ := pairsOf_mem hpq
    rw [objEval_x]
    have m1 := horderP.mem_iff.1 h1
    have m2 := horderP.mem_iff.1 h2
    rw [List.mem_range, horderL] at m1 m2
    exact ⟨m1, m2⟩
  have hsx : ((objEval f s).2).x = s.x := objEval_x f s
  rcases scanPairs_default_cases f better bi ((objEval f s).1)
      (pairsOf (shuffleSeq ds (List.range s.x.length)))
      ((objEval f s).2) ((objEval f s).1) none hmem
    with ⟨p1, p2, s1, hpr, hrun, hx⟩ | ⟨s1, bo, bp1, hrun, hx, hbp⟩
  · obtain ⟨hq1, hq2⟩ := hmem (p1, p2) hpr
    refine ⟨s1, true, ?_, ?_, ?_⟩
    · simp only [twoExchangeNS, hrun]
    · rw [hx]
      exact swapXs_isPerm hq1 hq2 (hsx ▸ hs)
    · rw [hx, swapXs_length, hsx]
  · rcases hbp with rfl | ⟨⟨q1, q2⟩, hq, rfl⟩
    · refine ⟨{ s1 with objVal := (objEval f s).1 }, false, ?_, ?_, ?_⟩
      · simp only [twoExchangeNS, hrun]
      · show IsPermList s1.x
        rw [hx, hsx]; exact hs
      · show s1.x.length = s.x.length
        rw [hx, hsx]
    · obtain ⟨hq1, hq2⟩ := hmem (q1, q2) hq
      rw [hsx] at hq1 hq2
      have hs1x : s1.x = s.x := by rw [hx, hsx]
      by_cases hq10 : q1 ≠ 0
      · refine ⟨{ s1 with x := swapXs s1.x q1 q2, objVal := bo }, true, ?_, ?_, ?_⟩
        · simp only [twoExchangeNS, hrun]
          rw [if_pos hq10]
        · show IsPermList (swapXs s1.x q1 q2)
          rw [hs1x]
          exact swapXs_isPerm hq1 hq2 hs
        · show (swapXs s1.x q1 q2).length = s.x.length
          rw [swapXs_length, hs1x]
      · refine ⟨{ s1 with objVal := (objEval f s).1 }, false, ?_, ?_, ?_⟩
        · simp only [twoExchangeNS, hrun]
          rw [if_neg hq10]
        · show IsPermList s1.x
          rw [hs1x]; exact hs
        · show s1.x.length = s.x.length
          rw [hs1x]

end SearchPerm

/-! ## Edge recombination: adjacency-list characterization -/

section ERAdj

theorem prev_mod {n i : Nat} (hn : 1 ≤ n) (hi : i < n) :
    (i + n - 1) % n = if i = 0 then n - 1 else i - 1 := by
  by_cases h0 : i = 0
  · rw [if_pos h0, h0]
    have h1 : 0 + n - 1 = n - 1 := by omega
    rw [h1]
    exact Nat.mod_eq_of_lt (by omega)
  · rw [if_neg h0]
    have : i + n - 1 = (i - 1) + n := by omega
    rw [this, Nat.add_mod_right]
    exact Nat.mod_eq_of_lt (by omega)

theorem next_mod {n i : Nat} (hn : 1 ≤ n) (hi : i < n) :
    (i + 1) % n = if i = n - 1 then 0 else i + 1 := by
  by_cases h0 : i = n - 1
  · rw [if_pos h0, h0]
    have : n - 1 + 1 = n := by omega
    rw [this, Nat.mod_self]
  · rw [if_neg h0]
    exact Nat.mod_eq_of_lt (by omega)

theorem prev_next_cancel {n i : Nat} (hn : 1 ≤ n) (hi : i < n) :
    ((i + 1) % n + n - 1) % n = i := by
  rw [next_mod hn hi]
  by_cases h0 : i = n - 1
  · rw [if_pos h0]
    rw [prev_mod (i := 0) hn (by omega), if_pos rfl]
    omega
  · rw [if_neg h0]
    rw [prev_mod (i := i + 1) hn (by omega), if_neg (by omega)]
    omega

theorem next_prev_cancel {n i : Nat} (hn : 1 ≤ n) (hi : i < n) :
    ((i + n - 1) % n + 1) % n = i := by
  rw [prev_mod hn hi]
  by_cases h0 : i = 0
  · rw [if_pos h0]
    rw [next_mod (i := n - 1) hn (by omega), if_pos rfl]
    omega
  · rw [if_neg h0]
    rw [next_mod (i := i - 1) hn (by omega), if_neg (by omega)]
    omega

theorem mem_appendIfNotContained {l : List Nat} {x v : Nat} :
    v ∈ appendIfNotContained l x ↔ v ∈ l ∨ v = x := by
  unfold appendIfNotContained
  by_cases h : x ∈ l
  · rw [if_pos h]
    constructor
    · exact Or.inl
    · rintro (hv | rfl)
      · exact hv
      · exact h
  · rw [if_neg h]
    simp

theorem nodup_appendIfNotContained {l : List Nat} (h : l.Nodup) (x : Nat) :
    (appendIfNotContained l x).Nodup := by
  unfold appendIfNotContained
  by_cases hx : x ∈ l
  · rw [if_pos hx]; exact h
  · rw [if_neg hx]
    simp [List.nodup_append, h, hx]

/-- The one-parent adjacency pass at the cell of the element at
position `i`. -/
theorem addParentAdj_at {xs : List Nat} (hx : IsPermList xs)
    (A : Nat → List Nat) {i : Nat} (hi : i < xs.length) :
    addParentAdj xs A (xs.getD i 0) =
      appendIfNotContained
        (appendIfNotContained (A (xs.getD i 0))
          (xs.getD ((i + xs.length - 1) % xs.length) 0))
        (xs.getD ((i + 1) % xs.length) 0) := by
  unfold addParentAdj
  rw [foldl_update_char (fun i => xs.getD i 0)
    (fun cur i => appendIfNotContained
      (appendIfNotContained cur (xs.getD ((i + xs.length - 1) % xs.length) 0))
      (xs.getD ((i + 1) % xs.length) 0))
    (List.range xs.length) _ _ (List.nodup_range _)
    (fun a ha b hb => isPermList_getD_inj hx (List.mem_range.1 ha)
      (List.mem_range.1 hb))]
  rcases hfind : (List.range xs.length).find?
      (fun j => xs.getD j 0 == xs.getD i 0) with _ | j
  · exfalso
    rw [List.find?_eq_none] at hfind
    exact hfind i (List.mem_range.2 hi) (by simp)
  · have hj1 := List.find?_some hfind
    have hj2 := List.mem_of_find?_eq_some hfind
    have heq : xs.getD j 0 = xs.getD i 0 := by simpa using hj1
    have : j = i := isPermList_getD_inj hx (List.mem_range.1 hj2) hi heq
    subst this
    rfl

/-- Elements not occurring in the parent keep their cell. -/
theorem addParentAdj_notMem {xs : List Nat} (A : Nat → List Nat) {u : Nat}
    (hu : ∀ i < xs.length, xs.getD i 0 ≠ u) : addParentAdj xs A u = A u := by
  unfold addParentAdj
  have : ∀ (L : List Nat) (A0 : Nat → List Nat), (∀ i ∈ L, i < xs.length) →
      (L.foldl (fun A i => Function.update A (xs.getD i 0)
        (appendIfNotContained
          (appendIfNotContained (A (xs.getD i 0))
            (xs.getD ((i + xs.length - 1) % xs.length) 0))
          (xs.getD ((i + 1) % xs.length) 0))) A0) u = A0 u := by
    intro L
    induction L with
    | nil => intro A0 _; rfl
    | cons j L ih =>
      intro A0 hLm
      simp only [List.foldl_cons]
      rw [ih _ (fun a ha => hLm a (List.mem_cons_of_mem _ ha))]
      exact Function.update_noteq
        (fun h => hu j (hLm j (List.mem_cons_self _ _)) h.symm) _ _
  exact this (List.range xs.length) A (fun i hi => List.mem_range.1 hi)

/-- Value of the cyclic predecessor of element `u` in parent `xs`. -/
def prevInParent (xs : List Nat) (u : Nat) : Nat :=
  xs.getD ((buildPos xs u + xs.length - 1) % xs.length) 0

/-- Value of the cyclic successor of element `u` in parent `xs`. -/
def nextInParent (xs : List Nat) (u : Nat) : Nat :=
  xs.getD ((buildPos xs u + 1) % xs.length) 0

theorem initAdj_eq {aX bX : List Nat} (ha : IsPermList aX) (hb : IsPermList bX)
    {u : Nat} (hu : u < aX.length) (hub : u < bX.length) :
    initAdj aX bX u =
      appendIfNotContained (appendIfNotContained
        (appendIfNotContained (appendIfNotContained [] (prevInParent aX u))
          (nextInParent aX u))
        (prevInParent bX u)) (nextInParent bX u) := by
  obtain ⟨hia, hiav⟩ := buildPos_inverse ha hu
  obtain ⟨hib, hibv⟩ := buildPos_inverse hb hub
  unfold initAdj
  have h2 : addParentAdj bX (addParentAdj aX (fun _ => [])) (bX.getD (buildPos bX u) 0) =
      appendIfNotContained
        (appendIfNotContained (addParentAdj aX (fun _ => []) (bX.getD (buildPos bX u) 0))
          (bX.getD ((buildPos bX u + bX.length - 1) % bX.length) 0))
        (bX.getD ((buildPos bX u + 1) % bX.length) 0) :=
    addParentAdj_at hb _ hib
  rw [hibv] at h2
  rw [h2]
  have h1 : addParentAdj aX (fun _ => []) (aX.getD (buildPos aX u) 0) =
      appendIfNotContained
        (appendIfNotContained ((fun (_ : Nat) => ([] : List Nat)) (aX.getD (buildPos aX u) 0))
          (aX.getD ((buildPos aX u + aX.length - 1) % aX.length) 0))
        (aX.getD ((buildPos aX u + 1) % aX.length) 0) :=
    addParentAdj_at ha _ hia
  rw [hiav] at h1
  rw [h1]
  rfl

theorem mem_initAdj_iff {aX bX : List Nat} (ha : IsPermList aX)
    (hb : IsPermList bX) {u : Nat} (hu : u < aX.length) (hub : u < bX.length)
    {v : Nat} :
    v ∈ initAdj aX bX u ↔
      v = prevInParent aX u ∨ v = nextInParent aX u ∨
      v = prevInParent bX u ∨ v = nextInParent bX u := by
  rw [initAdj_eq ha hb hu hub]
  simp only [mem_appendIfNotContained, List.not_mem_nil]
  tauto

theorem initAdj_empty_of_ge {aX bX : List Nat} (ha : IsPermList aX)
    (hb : IsPermList bX) (hlen : bX.length = aX.length) {u : Nat}
    (hu : aX.length ≤ u) : initAdj aX bX u = [] := by
  unfold initAdj
  rw [addParentAdj_notMem, addParentAdj_notMem]
  · intro i hi
    have := isPermList_getD_lt ha hi
    omega
  · intro i hi
    have := isPermList_getD_lt hb hi
    omega

theorem initAdj_nodup {aX bX : List Nat} (ha : IsPermList aX)
    (hb : IsPermList bX) (hlen : bX.length = aX.length) (u : Nat) :
    (initAdj aX bX u).Nodup := by
  by_cases hu : u < aX.length
  · rw [initAdj_eq ha hb hu (by omega)]
    exact nodup_appendIfNotContained
      (nodup_appendIfNotContained
        (nodup_appendIfNotContained
          (nodup_appendIfNotContained List.nodup_nil _) _) _) _
  · rw [initAdj_empty_of_ge ha hb hlen (by omega)]
    exact List.nodup_nil

theorem prevInParent_lt {xs : List Nat} (hx : IsPermList xs) {u : Nat}
    (hu : u < xs.length) : prevInParent xs u < xs.length := by
  unfold prevInParent
  exact isPermList_getD_lt hx (Nat.mod_lt _ (by omega))

theorem nextInParent_lt {xs : List Nat} (hx : IsPermList xs) {u : Nat}
    (hu : u < xs.length) : nextInParent xs u < xs.length := by
  unfold nextInParent
  exact isPermList_getD_lt hx (Nat.mod_lt _ (by omega))

theorem mem_initAdj_lt {aX bX : List Nat} (ha : IsPermList aX)
    (hb : IsPermList bX) (hlen : bX.length = aX.length) {u v : Nat}
    (hu : u < aX.length) (hv : v ∈ initAdj aX bX u) : v < aX.length := by
  rcases (mem_initAdj_iff ha hb hu (by omega)).1 hv with rfl | rfl | rfl | rfl
  · exact prevInParent_lt ha hu
  · exact nextInParent_lt ha hu
  · have := prevInParent_lt hb (show u < bX.length by omega); omega
  · have := nextInParent_lt hb (show u < bX.length by omega); omega

theorem prevInParent_ne {xs : List Nat} (hx : IsPermList xs)
    (h2 : 2 ≤ xs.length) {u : Nat} (hu : u < xs.length) :
    prevInParent xs u ≠ u := by
  obtain ⟨hia, hiav⟩ := buildPos_inverse hx hu
  unfold prevInParent
  intro hcontra
  have heq := isPermList_getD_inj hx (Nat.mod_lt _ (by omega)) hia
    (hcontra.trans hiav.symm)
  rw [prev_mod (by omega) hia] at heq
  by_cases h0 : buildPos xs u = 0
  · rw [if_pos h0] at heq; omega
  · rw [if_neg h0] at heq; omega

theorem nextInParent_ne {xs : List Nat} (hx : IsPermList xs)
    (h2 : 2 ≤ xs.length) {u : Nat} (hu : u < xs.length) :
    nextInParent xs u ≠ u := by
  obtain ⟨hia, hiav⟩ := buildPos_inverse hx hu
  unfold nextInParent
  intro hcontra
  have heq := isPermList_getD_inj hx (Nat.mod_lt _ (by omega)) hia
    (hcontra.trans hiav.symm)
  rw [next_mod (by omega) hia] at heq
  by_cases h0 : buildPos xs u = xs.length - 1
  · rw [if_pos h0] at heq; omega
  · rw [if_neg h0] at heq; omega

theorem initAdj_noself {aX bX : List Nat} (ha : IsPermList aX)
    (hb : IsPermList bX) (hlen : bX.length = aX.length)
    (h2 : 2 ≤ aX.length) {u : Nat} (hu : u < aX.length) :
    u ∉ initAdj aX bX u := by
  intro hmem
  rcases (mem_initAdj_iff ha hb hu (by omega)).1 hmem with h | h | h | h
  · exact prevInParent_ne ha h2 hu h.symm
  · exact nextInParent_ne ha h2 hu h.symm
  · exact prevInParent_ne hb (by omega) (by omega) h.symm
  · exact nextInParent_ne hb (by omega) (by omega) h.symm

theorem prev_next_symm {xs : List Nat} (hx : IsPermList xs) {u : Nat}
    (hu : u < xs.length) :
    prevInParent xs (nextInParent xs u) = u ∧
    nextInParent xs (prevInParent xs u) = u := by
  obtain ⟨hia, hiav⟩ := buildPos_inverse hx hu
  constructor
  · unfold prevInParent nextInParent
    rw [buildPos_getD hx (Nat.mod_lt _ (by omega))]
    rw [prev_next_cancel (by omega) hia]
    exact hiav
  · unfold nextInParent prevInParent
    rw [buildPos_getD hx (Nat.mod_lt _ (by omega))]
    rw [next_prev_cancel (by omega) hia]
    exact hiav

theorem initAdj_symm {aX bX : List Nat} (ha : IsPermList aX)
    (hb : IsPermList bX) (hlen : bX.length = aX.length) {u v : Nat}
    (hu : u < aX.length) (hv : v < aX.length)
    (hmem : v ∈ initAdj aX bX u) : u ∈ initAdj aX bX v := by
  rw [mem_initAdj_iff ha hb hv (by omega)]
  rcases (mem_initAdj_iff ha hb hu (by omega)).1 hmem with rfl | rfl | rfl | rfl
  · exact Or.inr (Or.inl (prev_next_symm ha hu).2.symm)
  · exact Or.inl (prev_next_symm ha hu).1.symm
  · exact Or.inr (Or.inr (Or.inr (prev_next_symm hb (show u < bX.length by omega)).2.symm))
  · exact Or.inr (Or.inr (Or.inl (prev_next_symm hb (show u < bX.length by omega)).1.symm))

end ERAdj

section ERRun

/-- Characterization of the removal pass
`for j in adj_lists[elem]: adj_lists[j].remove(elem)`. -/
theorem foldl_erase_char (L : List Nat) (hnd : L.Nodup) (A0 : Nat → List Nat)
    (c : Nat) (u : Nat) :
    (L.foldl (fun A j => Function.update A j ((A j).erase c)) A0) u =
      if u ∈ L then (A0 u).erase c else A0 u := by
  have := foldl_update_char (fun j => j) (fun l _ => l.erase c) L A0 u hnd
    (fun i _ j _ h => h)
  rw [this]
  rcases hfind : L.find? (fun j => j == u) with _ | j
  · rw [List.find?_eq_none] at hfind
    rw [if_neg (fun hm => by simpa using hfind u hm)]
  · have h1 := List.find?_some hfind
    have h2 := List.mem_of_find?_eq_some hfind
    have : j = u := by simpa using h1
    subst this
    rw [if_pos h2]

theorem filter_erase_of_nodup :
    ∀ {L : List Nat}, L.Nodup → ∀ (p : Nat → Bool) (c : Nat),
      (L.filter p).erase c = L.filter (fun v => p v && !(v == c))
  | [], _, p, c => rfl
  | x :: L, hnd, p, c => by
    have hndL : L.Nodup := (List.nodup_cons.1 hnd).2
    have hxL : x ∉ L := (List.nodup_cons.1 hnd).1
    by_cases hpx : p x
    · rw [List.filter_cons_of_pos hpx]
      by_cases hxc : x = c
      · subst hxc
        rw [List.erase_cons_head]
        rw [List.filter_cons_of_neg (by simp [hpx])]
        apply List.filter_congr
        intro v hv
        have hvx : v ≠ x := fun h => hxL (h ▸ hv)
        simp [hvx]
      · rw [List.erase_cons_tail (by simpa using hxc)]
        rw [filter_erase_of_nodup hndL p c]
        rw [List.filter_cons_of_pos (by simp [hpx, hxc])]
    · rw [List.filter_cons_of_neg (by simpa using hpx)]
      rw [List.filter_cons_of_neg (by simp [hpx])]
      exact filter_erase_of_nodup hndL p c

/-- Erasing an element from a filtered-by-membership list is filtering
by membership in the erased base, provided both lists are duplicate
free. -/
theorem filter_mem_erase {L un : List Nat} (hL : L.Nodup) (hun : un.Nodup)
    (c : Nat) :
    ((L.filter (fun v => decide (v ∈ un))).erase c) =
      L.filter (fun v => decide (v ∈ un.erase c)) := by
  rw [filter_erase_of_nodup hL _ c]
  apply List.filter_congr
  intro v _
  by_cases h1 : v ∈ un <;> by_cases h2 : v = c <;>
    simp [h1, h2, List.Nodup.mem_erase_iff hun]

theorem getD_mod_mem {l : List Nat} (h : l ≠ []) (d : Nat) :
    l.getD (d % l.length) 0 ∈ l := by
  have hpos : 0 < l.length := List.length_pos.2 h
  have hlt : d % l.length < l.length := Nat.mod_lt _ hpos
  rw [List.getD_eq_getElem _ 0 hlt]
  exact List.getElem_mem hlt

/-- The candidate-accumulation loop of `edge_recombination` keeps a
nonempty list of elements drawn from the initial candidates or the
scanned tail. -/
theorem erCandidates_spec (deg : Nat → Nat) (degree : Nat) :
    ∀ (tl cands : List Nat), cands ≠ [] →
      (tl.foldl (fun cands e2 =>
        if deg e2 < degree then [e2]
        else if deg e2 = degree then cands ++ [e2] else cands) cands) ≠ [] ∧
      ∀ v ∈ tl.foldl (fun cands e2 =>
        if deg e2 < degree then [e2]
        else if deg e2 = degree then cands ++ [e2] else cands) cands,
        v ∈ cands ∨ v ∈ tl
  | [], cands, hne => ⟨hne, fun v hv => Or.inl hv⟩
  | e2 :: tl, cands, hne => by
    simp only [List.foldl_cons]
    by_cases hlt : deg e2 < degree
    · rw [if_pos hlt]
      obtain ⟨h1, h2⟩ := erCandidates_spec deg degree tl [e2] (by simp)
      refine ⟨h1, fun v hv => ?_⟩
      rcases h2 v hv with hv1 | hv1
      · simp at hv1
        exact Or.inr (hv1 ▸ List.mem_cons_self _ _)
      · exact Or.inr (List.mem_cons_of_mem _ hv1)
    · rw [if_neg hlt]
      by_cases heq : deg e2 = degree
      · rw [if_pos heq]
        obtain ⟨h1, h2⟩ := erCandidates_spec deg degree tl (cands ++ [e2])
          (by simp)
        refine ⟨h1, fun v hv => ?_⟩
        rcases h2 v hv with hv1 | hv1
        · rcases List.mem_append.1 hv1 with hv2 | hv2
          · exact Or.inl hv2
          · simp at hv2
            exact Or.inr (hv2 ▸ List.mem_cons_self _ _)
        · exact Or.inr (List.mem_cons_of_mem _ hv1)
      · rw [if_neg heq]
        obtain ⟨h1, h2⟩ := erCandidates_spec deg degree tl cands hne
        refine ⟨h1, fun v hv => ?_⟩
        rcases h2 v hv with hv1 | hv1
        · exact Or.inl hv1
        · exact Or.inr (List.mem_cons_of_mem _ hv1)

theorem take_set_succ {l : List Nat} {k : Nat} (v : Nat) (h : k < l.length) :
    (l.set k v).take (k + 1) = l.take k ++ [v] := by
  rw [List.set_eq_take_append_cons_drop, if_pos h]
  rw [List.take_append_eq_append_take]
  have h1 : (List.take k l).length = k := by simp [List.length_take]; omega
  rw [h1]
  have h2 : k + 1 - k = 1 := by omega
  rw [h2]
  simp

theorem headD_mem {l : List Nat} (h : l ≠ []) : l.headD 0 ∈ l := by
  cases l with
  | nil => exact absurd rfl h
  | cons a l => exact List.mem_cons_self _ _

/-- Loop invariant of `edge_recombination` after `k` completed
iterations: the child's first `k` cells plus the unvisited elements are
the full range, the current element is still unvisited, and every
unvisited element's adjacency list is its initial list filtered to the
unvisited elements. -/
structure ERInv (aX bX : List Nat) (k : Nat) (st : ERSt) : Prop where
  childLen : st.child.length = aX.length
  curMem : st.cur ∈ st.unvisited
  permPart : (st.child.take k ++ st.unvisited).Perm (List.range aX.length)
  adjInv : ∀ u ∈ st.unvisited,
    st.adj u = (initAdj aX bX u).filter (fun v => decide (v ∈ st.unvisited))

/-- The candidate list is a nonempty selection of neighbors from the
current element's adjacency list. -/
theorem selectCandidates_spec (adj : Nat → List Nat) (lst : List Nat)
    (h : lst ≠ []) :
    selectCandidates adj lst ≠ [] ∧ ∀ v ∈ selectCandidates adj lst, v ∈ lst := by
  unfold selectCandidates
  obtain ⟨h1, h2⟩ := erCandidates_spec (fun e2 => (adj e2).length)
    ((adj (lst.headD 0)).length) lst.tail [lst.headD 0] (by simp)
  refine ⟨h1, fun v hv => ?_⟩
  rcases h2 v hv with hv1 | hv1
  · rw [List.mem_singleton] at hv1
    exact hv1 ▸ headD_mem h
  · exact (List.tail_sublist lst).subset hv1

theorem erStep_inv {aX bX : List Nat} (ha : IsPermList aX) (hb : IsPermList bX)
    (hlen : bX.length = aX.length) (h2 : 2 ≤ aX.length) (ds : Nat → Nat)
    {k : Nat} {st : ERSt} (hk : k + 2 ≤ aX.length) (hinv : ERInv aX bX k st) :
    ERInv aX bX (k + 1) (erStep ds st k) := by
  obtain ⟨hcl, hcm, hpp, hai⟩ := hinv
  have hsub : ∀ v ∈ st.unvisited, v < aX.length := fun v hv =>
    List.mem_range.1 (hpp.mem_iff.1 (List.mem_append_right _ hv))
  have hndAll : (st.child.take k ++ st.unvisited).Nodup :=
    hpp.nodup_iff.2 (List.nodup_range _)
  have hndU : st.unvisited.Nodup := hndAll.of_append_right
  have hcur : st.cur < aX.length := hsub _ hcm
  have hadjcur : st.adj st.cur =
      (initAdj aX bX st.cur).filter (fun v => decide (v ∈ st.unvisited)) :=
    hai _ hcm
  have hndadjcur : (st.adj st.cur).Nodup := by
    rw [hadjcur]
    exact (initAdj_nodup ha hb hlen _).filter _
  have hcurnotadj : st.cur ∉ st.adj st.cur := by
    rw [hadjcur]
    intro hmem
    exact initAdj_noself ha hb hlen h2 hcur (List.mem_of_mem_filter hmem)
  have hA : ∀ u, ((st.adj st.cur).foldl
      (fun A j => Function.update A j ((A j).erase st.cur)) st.adj) u =
      if u ∈ st.adj st.cur then (st.adj u).erase st.cur else st.adj u :=
    fun u => foldl_erase_char _ hndadjcur _ _ u
  have hAcur : ((st.adj st.cur).foldl
      (fun A j => Function.update A j ((A j).erase st.cur)) st.adj) st.cur =
      st.adj st.cur := by
    rw [hA, if_neg hcurnotadj]
  have hadjInvNew : ∀ u ∈ st.unvisited.erase st.cur,
      ((st.adj st.cur).foldl
        (fun A j => Function.update A j ((A j).erase st.cur)) st.adj) u =
      (initAdj aX bX u).filter
        (fun v => decide (v ∈ st.unvisited.erase st.cur)) := by
    intro u hu
    have hu2 : u ∈ st.unvisited := ((List.Nodup.mem_erase_iff hndU).1 hu).2
    have hult : u < aX.length := hsub _ hu2
    have hadju := hai _ hu2
    rw [hA]
    by_cases hmem : u ∈ st.adj st.cur
    · rw [if_pos hmem, hadju]
      exact filter_mem_erase (initAdj_nodup ha hb hlen u) hndU st.cur
    · rw [if_neg hmem, hadju]
      have hcnotin : st.cur ∉ initAdj aX bX u := by
        intro hc
        apply hmem
        rw [hadjcur, List.mem_filter]
        exact ⟨initAdj_symm ha hb hlen hult hcur hc, by simp [hu2]⟩
      apply List.filter_congr
      intro v hv
      have hvne : v ≠ st.cur := fun h => hcnotin (h ▸ hv)
      simp [List.Nodup.mem_erase_iff hndU, hvne]
  have hklt : k < st.child.length := by omega
  have htake : (st.child.set k st.cur).take (k + 1) =
      st.child.take k ++ [st.cur] := take_set_succ _ hklt
  have hpermNew : ((st.child.set k st.cur).take (k + 1) ++
      st.unvisited.erase st.cur).Perm (List.range aX.length) := by
    rw [htake, List.append_assoc]
    refine List.Perm.trans ?_ hpp
    apply List.Perm.append_left
    exact (List.perm_cons_erase hcm).symm
  have hlenU : st.unvisited.length = aX.length - k := by
    have hl := hpp.length_eq
    rw [List.length_append, List.length_take, List.length_range] at hl
    have hmin : k ⊓ st.child.length = k := Nat.min_eq_left (by omega)
    rw [hmin] at hl
    omega
  have hlenUe : (st.unvisited.erase st.cur).length = aX.length - k - 1 := by
    rw [List.length_erase_of_mem hcm]
    omega
  have hUene : st.unvisited.erase st.cur ≠ [] := by
    intro hcontra
    have := congrArg List.length hcontra
    rw [hlenUe] at this
    simp at this
    omega
  have hchildLen : (st.child.set k st.cur).length = aX.length := by
    rw [List.length_set]; exact hcl
  have hAcur2 : removeFromAdj st.adj st.cur st.cur = st.adj st.cur := hAcur
  have hadjInvNew2 : ∀ u ∈ st.unvisited.erase st.cur,
      removeFromAdj st.adj st.cur u =
      (initAdj aX bX u).filter
        (fun v => decide (v ∈ st.unvisited.erase st.cur)) := hadjInvNew
  simp only [erStep]
  by_cases hemp : st.adj st.cur = []
  · rw [if_pos (by rw [hAcur2]; exact hemp)]
    exact ⟨hchildLen, getD_mod_mem hUene _, hpermNew, hadjInvNew2⟩
  · rw [if_neg (by rw [hAcur2]; exact hemp)]
    refine ⟨hchildLen, ?_, hpermNew, ?_⟩
    · -- the selected candidate is an unvisited neighbor of `cur`
      obtain ⟨hcne, hcsub⟩ := selectCandidates_spec
        (removeFromAdj st.adj st.cur) (removeFromAdj st.adj st.cur st.cur)
        (by rw [hAcur2]; exact hemp)
      have hmain : ∀ w ∈ selectCandidates (removeFromAdj st.adj st.cur)
          (removeFromAdj st.adj st.cur st.cur),
          w ∈ st.unvisited.erase st.cur := by
        intro w hw
        have hw1 := hcsub _ hw
        rw [hAcur2] at hw1
        rw [hadjcur, List.mem_filter] at hw1
        have hwAdj : w ∈ initAdj aX bX st.cur := hw1.1
        have hwU : w ∈ st.unvisited := of_decide_eq_true hw1.2
        have hwNe : w ≠ st.cur := fun hc =>
          initAdj_noself ha hb hlen h2 hcur (hc ▸ hwAdj)
        exact (List.Nodup.mem_erase_iff hndU).2 ⟨hwNe, hwU⟩
      exact hmain _ (getD_mod_mem hcne _)
    · intro u hu
      have hune : u ≠ st.cur := ((List.Nodup.mem_erase_iff hndU).1 hu).1
      show Function.update (removeFromAdj st.adj st.cur) st.cur [] u = _
      rw [Function.update_noteq hune]
      exact hadjInvNew2 u hu

theorem erInit_inv {aX bX : List Nat} (ha : IsPermList aX) (hb : IsPermList bX)
    (hlen : bX.length = aX.length) (hn : 1 ≤ aX.length) (ds : Nat → Nat) :
    ERInv aX bX 0 (erStart aX bX ds) := by
  refine ⟨rfl, ?_, ?_, ?_⟩
  · exact List.mem_range.2 (Nat.mod_lt _ (by omega))
  · simp [erStart]
  · intro u hu
    refine (List.filter_eq_self.2 ?_).symm
    intro v hv
    exact decide_eq_true (List.mem_range.2
      (mem_initAdj_lt ha hb hlen (List.mem_range.1 hu) hv))

theorem erLoop_inv {aX bX : List Nat} (ha : IsPermList aX) (hb : IsPermList bX)
    (hlen : bX.length = aX.length) (h2 : 2 ≤ aX.length) (ds : Nat → Nat)
    (st0 : ERSt) (h0 : ERInv aX bX 0 st0) :
    ∀ k, k ≤ aX.length - 1 →
      ERInv aX bX k ((List.range k).foldl (erStep ds) st0)
  | 0, _ => h0
  | k + 1, hk => by
    rw [List.range_succ, List.foldl_append, List.foldl_cons, List.foldl_nil]
    exact erStep_inv ha hb hlen h2 ds (by omega)
      (erLoop_inv ha hb hlen h2 ds st0 h0 k (by omega))

/-- Edge recombination produces a permutation child of the parents'
common length, for every draw sequence and every `n ≥ 1`. -/
theorem edgeRecomb_isPerm {aX bX : List Nat} (ds : Nat → Nat)
    (ha : IsPermList aX) (hb : IsPermList bX)
    (hlen : bX.length = aX.length) (hn : 1 ≤ aX.length) :
    ∃ c, edgeRecomb aX bX ds = some c ∧ IsPermList c ∧
      c.length = aX.length := by
  by_cases h2 : 2 ≤ aX.length
  · obtain ⟨hcl, hcm, hpp, _⟩ := erLoop_inv ha hb hlen h2 ds
      (erStart aX bX ds)
      (erInit_inv ha hb hlen hn ds) (aX.length - 1) (le_refl _)
    set stF := (List.range (aX.length - 1)).foldl (erStep ds)
      (erStart aX bX ds) with hstF
    have hlenU : stF.unvisited.length = 1 := by
      have hl := hpp.length_eq
      rw [List.length_append, List.length_take, List.length_range] at hl
      have hmin : (aX.length - 1) ⊓ stF.child.length = aX.length - 1 :=
        Nat.min_eq_left (by omega)
      rw [hmin] at hl
      omega
    have hUn : stF.unvisited = [stF.cur] := by
      rcases hu : stF.unvisited with _ | ⟨a, _ | ⟨b, t⟩⟩
      · rw [hu] at hlenU; simp at hlenU
      · rw [hu] at hcm
        rw [List.mem_singleton] at hcm
        rw [hcm]
      · rw [hu] at hlenU; simp at hlenU
    have hset : stF.child.set (aX.length - 1) stF.cur =
        stF.child.take (aX.length - 1) ++ [stF.cur] := by
      rw [List.set_eq_take_append_cons_drop, if_pos (by omega)]
      have hdrop : stF.child.drop (aX.length - 1 + 1) = [] :=
        List.drop_eq_nil_of_le (by omega)
      rw [hdrop]
    have hperm : (stF.child.set (aX.length - 1) stF.cur).Perm
        (List.range aX.length) := by
      rw [hset]
      refine List.Perm.trans ?_ hpp
      rw [← hUn]
    have hclen : (stF.child.set (aX.length - 1) stF.cur).length = aX.length := by
      rw [List.length_set]; exact hcl
    refine ⟨stF.child.set (aX.length - 1) stF.cur, ?_, ?_, hclen⟩
    · simp only [edgeRecomb]
      rw [if_neg (by omega)]
    · unfold IsPermList
      rw [hclen]
      exact hperm
  · have hn1 : aX.length = 1 := by omega
    have haeq : aX = [0] := by
      have hperm : aX.Perm [0] := by
        have := ha
        unfold IsPermList at this
        rw [hn1] at this
        exact this
      exact List.perm_singleton.1 hperm
    refine ⟨[0], ?_, by decide, by rw [haeq]⟩
    rw [haeq]
    simp [edgeRecomb, erStart, Nat.mod_one]

end ERRun

/-! ## Edge recombination with two identical parents: rotation/reflection -/

section C9Section

/-- The element at tour offset `i` from start position `p0` walking in
direction `d` (`d = 1` forward, `d = n - 1` backward) through the cyclic
tour `x`. -/
def tourAt (x : List Nat) (p0 d i : Nat) : Nat :=
  x.getD ((p0 + i * d) % x.length) 0

theorem sigma_idx_inj {n p0 d : Nat} (hd : d = 1 ∨ d = n - 1)
    {j1 j2 : Nat} (h1 : j1 < n) (h2 : j2 < n)
    (heq : (p0 + j1 * d) % n = (p0 + j2 * d) % n) : j1 = j2 := by
  have hmod : Nat.ModEq n (j1 * d) (j2 * d) :=
    Nat.ModEq.add_left_cancel' p0 heq
  rcases hd with rfl | rfl
  · rw [Nat.mul_one, Nat.mul_one] at hmod
    have := hmod
    unfold Nat.ModEq at this
    rw [Nat.mod_eq_of_lt h1, Nat.mod_eq_of_lt h2] at this
    exact this
  · obtain ⟨m, rfl⟩ : ∃ m, n = m + 1 := ⟨n - 1, by omega⟩
    have hm1 : m + 1 - 1 = m := by omega
    rw [hm1] at hmod
    have hmod2 := hmod.add_right (j1 + j2)
    have e1 : j1 * m + (j1 + j2) = j1 * (m + 1) + j2 := by ring
    have e2 : j2 * m + (j1 + j2) = j2 * (m + 1) + j1 := by ring
    rw [e1, e2] at hmod2
    unfold Nat.ModEq at hmod2
    rw [Nat.mul_add_mod', Nat.mul_add_mod'] at hmod2
    rw [Nat.mod_eq_of_lt h1, Nat.mod_eq_of_lt h2] at hmod2
    exact hmod2.symm

theorem sigma_idx_surj {n p0 d : Nat} (hn : 1 ≤ n) (hd : d = 1 ∨ d = n - 1)
    {i : Nat} (hi : i < n) : ∃ j, j < n ∧ (p0 + j * d) % n = i := by
  have hinj : Function.Injective
      (fun j : Fin n => (⟨(p0 + j.1 * d) % n, Nat.mod_lt _ (by omega)⟩ : Fin n)) := by
    intro a b hab
    exact Fin.ext (sigma_idx_inj hd a.2 b.2 (congrArg Fin.val hab))
  obtain ⟨j, hj⟩ := Finite.injective_iff_surjective.1 hinj ⟨i, hi⟩
  exact ⟨j.1, j.2, congrArg Fin.val hj⟩

theorem tourAt_lt {x : List Nat} (hx : IsPermList x) (hn : 1 ≤ x.length)
    (p0 d i : Nat) : tourAt x p0 d i < x.length :=
  isPermList_getD_lt hx (Nat.mod_lt _ (by omega))

theorem tourAt_inj {x : List Nat} (hx : IsPermList x)
    (hd : d = 1 ∨ d = x.length - 1) {j1 j2 : Nat} (h1 : j1 < x.length)
    (h2 : j2 < x.length) {p0 : Nat}
    (heq : tourAt x p0 d j1 = tourAt x p0 d j2) : j1 = j2 := by
  unfold tourAt at heq
  have hidx := isPermList_getD_inj hx (Nat.mod_lt _ (by omega))
    (Nat.mod_lt _ (by omega)) heq
  exact sigma_idx_inj hd h1 h2 hidx

theorem buildPos_tourAt {x : List Nat} (hx : IsPermList x) (hn : 1 ≤ x.length)
    (p0 d k : Nat) :
    buildPos x (tourAt x p0 d k) = (p0 + k * d) % x.length := by
  unfold tourAt
  exact buildPos_getD hx (Nat.mod_lt _ (by omega))

theorem nextInParent_tourAt_forward {x : List Nat} (hx : IsPermList x)
    (hn : 1 ≤ x.length) (p0 k : Nat) :
    nextInParent x (tourAt x p0 1 k) = tourAt x p0 1 (k + 1) := by
  unfold nextInParent
  rw [buildPos_tourAt hx hn]
  unfold tourAt
  rw [Nat.mod_add_mod]
  have : p0 + k * 1 + 1 = p0 + (k + 1) * 1 := by ring
  rw [this]

theorem prevInParent_tourAt_forward {x : List Nat} (hx : IsPermList x)
    (hn : 1 ≤ x.length) (p0 : Nat) {k : Nat} (hk : 1 ≤ k) :
    prevInParent x (tourAt x p0 1 k) = tourAt x p0 1 (k - 1) := by
  unfold prevInParent
  rw [buildPos_tourAt hx hn]
  unfold tourAt
  have h1 : (p0 + k * 1) % x.length + x.length - 1 =
      (p0 + k * 1) % x.length + (x.length - 1) := by omega
  rw [h1, Nat.mod_add_mod]
  have h2 : p0 + k * 1 + (x.length - 1) = p0 + (k - 1) * 1 + x.length := by
    have : k * 1 = k := by ring
    rw [this]
    have : (k - 1) * 1 = k - 1 := by ring
    rw [this]
    omega
  rw [h2, Nat.add_mod_right]

theorem prevInParent_tourAt_backward {x : List Nat} (hx : IsPermList x)
    (hn : 1 ≤ x.length) (p0 k : Nat) :
    prevInParent x (tourAt x p0 (x.length - 1) k) =
      tourAt x p0 (x.length - 1) (k + 1) := by
  unfold prevInParent
  rw [buildPos_tourAt hx hn]
  unfold tourAt
  have h1 : (p0 + k * (x.length - 1)) % x.length + x.length - 1 =
      (p0 + k * (x.length - 1)) % x.length + (x.length - 1) := by omega
  rw [h1, Nat.mod_add_mod]
  have h2 : p0 + k * (x.length - 1) + (x.length - 1) =
      p0 + (k + 1) * (x.length - 1) := by
    have : (k + 1) * (x.length - 1) = k * (x.length - 1) + (x.length - 1) :=
      Nat.succ_mul _ _
    omega
  rw [h2]

theorem nextInParent_tourAt_backward {x : List Nat} (hx : IsPermList x)
    (h2n : 2 ≤ x.length) (p0 : Nat) {k : Nat} (hk : 1 ≤ k) :
    nextInParent x (tourAt x p0 (x.length - 1) k) =
      tourAt x p0 (x.length - 1) (k - 1) := by
  unfold nextInParent
  rw [buildPos_tourAt hx (by omega)]
  unfold tourAt
  rw [Nat.mod_add_mod]
  have h2 : p0 + k * (x.length - 1) + 1 =
      p0 + (k - 1) * (x.length - 1) + x.length := by
    have hk2 : k = (k - 1) + 1 := by omega
    have hs : k * (x.length - 1) = (k - 1) * (x.length - 1) + (x.length - 1) := by
      calc k * (x.length - 1) = ((k - 1) + 1) * (x.length - 1) := by rw [← hk2]
        _ = (k - 1) * (x.length - 1) + (x.length - 1) := Nat.succ_mul _ _
    omega
  rw [h2, Nat.add_mod_right]

theorem pair_distinct {x : List Nat} (hx : IsPermList x) (h3 : 3 ≤ x.length)
    {u : Nat} (hu : u < x.length) :
    prevInParent x u ≠ nextInParent x u := by
  obtain ⟨hia, _⟩ := buildPos_inverse hx hu
  unfold prevInParent nextInParent
  intro hcontra
  have hidx := isPermList_getD_inj hx (Nat.mod_lt _ (by omega))
    (Nat.mod_lt _ (by omega)) hcontra
  rw [prev_mod (by omega) hia, next_mod (by omega) hia] at hidx
  by_cases h0 : buildPos x u = 0
  · rw [if_pos h0] at hidx
    by_cases h1 : buildPos x u = x.length - 1
    · omega
    · rw [if_neg h1] at hidx
      omega
  · rw [if_neg h0] at hidx
    by_cases h1 : buildPos x u = x.length - 1
    · rw [if_pos h1] at hidx
      omega
    · rw [if_neg h1] at hidx
      omega

/-- With two identical parents and `n ≥ 3`, every element's adjacency
list is exactly its two distinct cyclic neighbors, predecessor first. -/
theorem initAdj_pair {x : List Nat} (hx : IsPermList x) (h3 : 3 ≤ x.length)
    {u : Nat} (hu : u < x.length) :
    initAdj x x u = [prevInParent x u, nextInParent x u] := by
  rw [initAdj_eq hx hx hu hu]
  have hpn : prevInParent x u ≠ nextInParent x u := pair_distinct hx h3 hu
  have e1 : appendIfNotContained [] (prevInParent x u) = [prevInParent x u] := by
    unfold appendIfNotContained
    rw [if_neg (List.not_mem_nil _)]
    rfl
  have e2 : appendIfNotContained [prevInParent x u] (nextInParent x u) =
      [prevInParent x u, nextInParent x u] := by
    unfold appendIfNotContained
    rw [if_neg (by rw [List.mem_singleton]; exact fun h => hpn h.symm)]
    rfl
  have e3 : appendIfNotContained [prevInParent x u, nextInParent x u]
      (prevInParent x u) = [prevInParent x u, nextInParent x u] := by
    unfold appendIfNotContained
    rw [if_pos (List.mem_cons_self _ _)]
  have e4 : appendIfNotContained [prevInParent x u, nextInParent x u]
      (nextInParent x u) = [prevInParent x u, nextInParent x u] := by
    unfold appendIfNotContained
    rw [if_pos (by simp)]
  rw [e1, e2, e3, e4]

/-- With two identical parents and `n = 2`, the two cyclic neighbors
coincide and the adjacency list is the single other element. -/
theorem initAdj_single {x : List Nat} (hx : IsPermList x)
    (h2 : x.length = 2) {u : Nat} (hu : u < x.length) :
    initAdj x x u = [prevInParent x u] ∧
    prevInParent x u = nextInParent x u := by
  obtain ⟨hia, _⟩ := buildPos_inverse hx hu
  have heqidx : (buildPos x u + x.length - 1) % x.length =
      (buildPos x u + 1) % x.length := by
    rw [prev_mod (by omega) hia, next_mod (by omega) hia]
    by_cases h0 : buildPos x u = 0
    · rw [if_pos h0, if_neg (by omega)]
      omega
    · rw [if_neg h0, if_pos (by omega)]
      omega
  have hpn : prevInParent x u = nextInParent x u := by
    unfold prevInParent nextInParent
    rw [heqidx]
  refine ⟨?_, hpn⟩
  rw [initAdj_eq hx hx hu hu]
  have e1 : appendIfNotContained [] (prevInParent x u) = [prevInParent x u] := by
    unfold appendIfNotContained
    rw [if_neg (List.not_mem_nil _)]
    rfl
  have e2 : appendIfNotContained [prevInParent x u] (nextInParent x u) =
      [prevInParent x u] := by
    unfold appendIfNotContained
    rw [if_pos (by rw [List.mem_singleton]; exact hpn.symm)]
  have e3 : appendIfNotContained [prevInParent x u] (prevInParent x u) =
      [prevInParent x u] := by
    unfold appendIfNotContained
    rw [if_pos (List.mem_cons_self _ _)]
  rw [e1, e2, e3, e2]

theorem tourAt_zero {x : List Nat} {p0 : Nat} (hp0 : p0 < x.length) (d : Nat) :
    tourAt x p0 d 0 = x.getD p0 0 := by
  unfold tourAt
  rw [Nat.zero_mul, Nat.add_zero, Nat.mod_eq_of_lt hp0]

theorem erase_pair_right {a b : Nat} (h : a ≠ b) :
    ([a, b] : List Nat).erase b = [a] := by
  rw [List.erase_cons_tail (by simpa using h), List.erase_cons_head]

theorem selectCandidates_singleton (adj : Nat → List Nat) (w : Nat) :
    selectCandidates adj [w] = [w] := rfl

/-- After `k` completed iterations of `edge_recombination` on two equal
parents `x`, the placed prefix is the tour arc from position `p0` in
direction `d`, the current element is the arc's next element, and the
unvisited elements are exactly the rest of the arc. -/
structure C9Ext (x : List Nat) (p0 d k : Nat) (st : ERSt) : Prop where
  curEq : st.cur = tourAt x p0 d k
  childEq : ∀ i < k, st.child.getD i 0 = tourAt x p0 d i
  unvChar : ∀ v, v ∈ st.unvisited ↔
    ∃ j, k ≤ j ∧ j < x.length ∧ v = tourAt x p0 d j

/-- Shared unvisited-characterization argument: erasing the arc element
at offset `k` from a set characterized by offsets `≥ k` leaves the set
characterized by offsets `≥ k + 1`. -/
theorem unvChar_erase {x : List Nat} (hx : IsPermList x)
    (p0 d k : Nat) (hd : d = 1 ∨ d = x.length - 1) (hk : k < x.length)
    {un : List Nat} (hnd : un.Nodup)
    (hchar : ∀ v, v ∈ un ↔ ∃ j, k ≤ j ∧ j < x.length ∧ v = tourAt x p0 d j) :
    ∀ v, v ∈ un.erase (tourAt x p0 d k) ↔
      ∃ j, k + 1 ≤ j ∧ j < x.length ∧ v = tourAt x p0 d j := by
  intro v
  rw [List.Nodup.mem_erase_iff hnd, hchar v]
  constructor
  · rintro ⟨hne, j, hj1, hj2, rfl⟩
    refine ⟨j, ?_, hj2, rfl⟩
    rcases Nat.eq_or_lt_of_le hj1 with rfl | hlt
    · exact absurd rfl hne
    · omega
  · rintro ⟨j, hj1, hj2, rfl⟩
    refine ⟨?_, j, by omega, hj2, rfl⟩
    intro heq
    have := tourAt_inj hx hd hj2 hk heq
    omega

/-- First iteration of `edge_recombination` on two identical parents:
the drawn start element is placed, and the next element is one of its
two cyclic neighbors, fixing the direction `d` of the walk. -/
theorem C9_base {x : List Nat} (hx : IsPermList x) (h2 : 2 ≤ x.length)
    (ds : Nat → Nat) :
    ∃ d, (d = 1 ∨ d = x.length - 1) ∧
      C9Ext x (buildPos x (ds 0 % x.length)) d 1
        (erStep ds (erStart x x ds) 0) := by
  have hn1 : 1 ≤ x.length := by omega
  have hv0 : ds 0 % x.length < x.length := Nat.mod_lt _ (by omega)
  obtain ⟨hp0, hp0v⟩ := buildPos_inverse hx hv0
  have hA : ∀ u, removeFromAdj (initAdj x x) (ds 0 % x.length) u =
      if u ∈ initAdj x x (ds 0 % x.length)
      then (initAdj x x u).erase (ds 0 % x.length)
      else initAdj x x u :=
    fun u => foldl_erase_char _ (initAdj_nodup hx hx rfl _) _ _ u
  have hAv0 : removeFromAdj (initAdj x x) (ds 0 % x.length) (ds 0 % x.length) =
      initAdj x x (ds 0 % x.length) := by
    rw [hA, if_neg (initAdj_noself hx hx rfl h2 hv0)]
  have hchildEq : ∀ d : Nat, ∀ i < 1,
      (x.set 0 (ds 0 % x.length)).getD i 0 =
        tourAt x (buildPos x (ds 0 % x.length)) d i := by
    intro d i hi
    interval_cases i
    rw [getD_set_lt x 0 _ 0 (by omega), if_pos rfl, tourAt_zero hp0, hp0v]
  have hzero : ∀ d : Nat, tourAt x (buildPos x (ds 0 % x.length)) d 0 =
      ds 0 % x.length := by
    intro d
    rw [tourAt_zero hp0, hp0v]
  have hunv : ∀ d : Nat, (d = 1 ∨ d = x.length - 1) → ∀ v,
      v ∈ (List.range x.length).erase (ds 0 % x.length) ↔
      ∃ j, 1 ≤ j ∧ j < x.length ∧
        v = tourAt x (buildPos x (ds 0 % x.length)) d j := by
    intro d hd v
    have := unvChar_erase hx (buildPos x (ds 0 % x.length)) d 0 hd
      (show 0 < x.length by omega)
      (List.nodup_range x.length) ?hch
    case hch =>
      intro w
      rw [List.mem_range]
      constructor
      · intro hw
        have hwx : w ∈ x := hx.mem_iff.2 (List.mem_range.2 hw)
        obtain ⟨idx, hidx, hidxv⟩ := mem_iff_exists_getElem.1 hwx
        obtain ⟨j, hj, hjeq⟩ := sigma_idx_surj hn1 hd hidx
        refine ⟨j, by omega, hj, ?_⟩
        unfold tourAt
        rw [hjeq, List.getD_eq_getElem _ 0 hidx, hidxv]
      · rintro ⟨j, _, hj2, rfl⟩
        exact tourAt_lt hx hn1 _ _ _
    rw [hzero d] at this
    exact this v
  simp only [erStep, erStart]
  by_cases h3 : 3 ≤ x.length
  · -- two distinct neighbors; the second draw picks the direction
    have hpair := initAdj_pair hx h3 hv0
    have hprevlt := prevInParent_lt hx hv0
    have hnextlt := nextInParent_lt hx hv0
    have hAprev : removeFromAdj (initAdj x x) (ds 0 % x.length)
        (prevInParent x (ds 0 % x.length)) =
        [prevInParent x (prevInParent x (ds 0 % x.length))] := by
      rw [hA, if_pos (by rw [hpair]; exact List.mem_cons_self _ _)]
      rw [initAdj_pair hx h3 hprevlt]
      rw [(prev_next_symm hx hv0).2]
      apply erase_pair_right
      intro hcontra
      have := pair_distinct hx h3 hprevlt
      rw [hcontra, (prev_next_symm hx hv0).2] at this
      exact this rfl
    have hAnext : removeFromAdj (initAdj x x) (ds 0 % x.length)
        (nextInParent x (ds 0 % x.length)) =
        [nextInParent x (nextInParent x (ds 0 % x.length))] := by
      rw [hA, if_pos (by rw [hpair]; simp)]
      rw [initAdj_pair hx h3 hnextlt]
      rw [(prev_next_symm hx hv0).1]
      exact List.erase_cons_head _ _
    have hcand : selectCandidates (removeFromAdj (initAdj x x) (ds 0 % x.length))
        (removeFromAdj (initAdj x x) (ds 0 % x.length) (ds 0 % x.length)) =
        [prevInParent x (ds 0 % x.length), nextInParent x (ds 0 % x.length)] := by
      rw [hAv0, hpair]
      unfold selectCandidates
      simp only [List.tail_cons, List.headD_cons, List.foldl_cons, List.foldl_nil]
      simp only [hAprev, hAnext]
      simp
    rw [if_neg (by rw [hAv0, hpair]; simp)]
    rcases Nat.mod_two_eq_zero_or_one (ds 1) with hds | hds
    · refine ⟨x.length - 1, Or.inr rfl, ?_, hchildEq _, hunv _ (Or.inr rfl)⟩
      show (selectCandidates _ _).getD (ds 1 % (selectCandidates _ _).length) 0 = _
      rw [hcand]
      show [prevInParent x (ds 0 % x.length),
        nextInParent x (ds 0 % x.length)].getD (ds 1 % 2) 0 = _
      rw [hds]
      show prevInParent x (ds 0 % x.length) = _
      have hback := prevInParent_tourAt_backward hx hn1
        (buildPos x (ds 0 % x.length)) 0
      rw [hzero] at hback
      exact hback
    · refine ⟨1, Or.inl rfl, ?_, hchildEq _, hunv _ (Or.inl rfl)⟩
      show (selectCandidates _ _).getD (ds 1 % (selectCandidates _ _).length) 0 = _
      rw [hcand]
      show [prevInParent x (ds 0 % x.length),
        nextInParent x (ds 0 % x.length)].getD (ds 1 % 2) 0 = _
      rw [hds]
      show nextInParent x (ds 0 % x.length) = _
      have hback := nextInParent_tourAt_forward hx hn1
        (buildPos x (ds 0 % x.length)) 0
      rw [hzero] at hback
      exact hback
  · -- n = 2: the single neighbor is picked, direction n-1
    have h2eq : x.length = 2 := by omega
    obtain ⟨hsingle, hpn⟩ := initAdj_single hx h2eq hv0
    have hcand : selectCandidates (removeFromAdj (initAdj x x) (ds 0 % x.length))
        (removeFromAdj (initAdj x x) (ds 0 % x.length) (ds 0 % x.length)) =
        [prevInParent x (ds 0 % x.length)] := by
      rw [hAv0, hsingle, selectCandidates_singleton]
    rw [if_neg (by rw [hAv0, hsingle]; simp)]
    refine ⟨x.length - 1, Or.inr rfl, ?_, hchildEq _, hunv _ (Or.inr rfl)⟩
    show (selectCandidates _ _).getD (ds 1 % (selectCandidates _ _).length) 0 = _
    rw [hcand]
    show [prevInParent x (ds 0 % x.length)].getD (ds 1 % 1) 0 = _
    rw [Nat.mod_one]
    show prevInParent x (ds 0 % x.length) = _
    have hback := prevInParent_tourAt_backward hx hn1
      (buildPos x (ds 0 % x.length)) 0
    rw [hzero] at hback
    exact hback

/-- Middle iterations of `edge_recombination` on two identical parents:
the arc end's only unvisited neighbor is the next arc element, so the
walk continues deterministically in the chosen direction. -/
theorem C9_step {x : List Nat} (hx : IsPermList x) (ds : Nat → Nat)
    {p0 d k : Nat} (hd : d = 1 ∨ d = x.length - 1)
    (hk1 : 1 ≤ k) (hk2 : k + 2 ≤ x.length) {st : ERSt}
    (hER : ERInv x x k st) (hC9 : C9Ext x p0 d k st) :
    C9Ext x p0 d (k + 1) (erStep ds st k) := by
  obtain ⟨hcl, hcm, hpp, hai⟩ := hER
  obtain ⟨hcur, hchild, hunv⟩ := hC9
  have h3 : 3 ≤ x.length := by omega
  have hn1 : 1 ≤ x.length := by omega
  have hklt : k < x.length := by omega
  have hkplt : k + 1 < x.length := by omega
  have hkm1lt : k - 1 < x.length := by omega
  have hsk : tourAt x p0 d k < x.length := tourAt_lt hx hn1 _ _ _
  have hndU : st.unvisited.Nodup :=
    (hpp.nodup_iff.2 (List.nodup_range _)).of_append_right
  have hmem_next : tourAt x p0 d (k + 1) ∈ st.unvisited :=
    (hunv _).2 ⟨k + 1, by omega, by omega, rfl⟩
  have hnmem_prev : tourAt x p0 d (k - 1) ∉ st.unvisited := by
    intro hmem
    obtain ⟨j, hj1, hj2, hjeq⟩ := (hunv _).1 hmem
    have := tourAt_inj hx hd hkm1lt hj2 hjeq
    omega
  have hpair := initAdj_pair hx h3 hsk
  have hfilter : st.adj st.cur = [tourAt x p0 d (k + 1)] := by
    rw [hai _ hcm, hcur, hpair]
    rcases hd with rfl | rfl
    · rw [prevInParent_tourAt_forward hx hn1 p0 hk1,
        nextInParent_tourAt_forward hx hn1]
      simp [hnmem_prev, hmem_next]
    · rw [prevInParent_tourAt_backward hx hn1,
        nextInParent_tourAt_backward hx (by omega) p0 hk1]
      simp [hnmem_prev, hmem_next]
  have hndadj : (st.adj st.cur).Nodup := by rw [hfilter]; simp
  have hcurnot : st.cur ∉ st.adj st.cur := by
    rw [hfilter, List.mem_singleton, hcur]
    intro hcontra
    have := tourAt_inj hx hd hklt hkplt hcontra
    omega
  have hAcur : removeFromAdj st.adj st.cur st.cur = st.adj st.cur := by
    have h1 := foldl_erase_char (st.adj st.cur) hndadj st.adj st.cur st.cur
    rw [if_neg hcurnot] at h1
    exact h1
  have hcand : selectCandidates (removeFromAdj st.adj st.cur)
      (removeFromAdj st.adj st.cur st.cur) = [tourAt x p0 d (k + 1)] := by
    rw [hAcur, hfilter, selectCandidates_singleton]
  simp only [erStep]
  rw [if_neg (by rw [hAcur, hfilter]; simp)]
  refine ⟨?_, ?_, ?_⟩
  · show (selectCandidates (removeFromAdj st.adj st.cur)
        (removeFromAdj st.adj st.cur st.cur)).getD
        (ds st.t % (selectCandidates (removeFromAdj st.adj st.cur)
          (removeFromAdj st.adj st.cur st.cur)).length) 0 =
      tourAt x p0 d (k + 1)
    rw [hcand]
    simp [Nat.mod_one]
  · intro i hi
    show (st.child.set k st.cur).getD i 0 = _
    rw [getD_set_lt st.child k st.cur i (by omega)]
    by_cases hik : k = i
    · rw [if_pos hik, hcur, ← hik]
    · rw [if_neg hik]
      exact hchild i (by omega)
  · intro v
    show v ∈ st.unvisited.erase st.cur ↔ _
    rw [hcur]
    exact unvChar_erase hx p0 d k hd hklt hndU hunv v

theorem C9_run {x : List Nat} (hx : IsPermList x) (h2 : 2 ≤ x.length)
    (ds : Nat → Nat) :
    ∃ d, (d = 1 ∨ d = x.length - 1) ∧
      ∀ k, 1 ≤ k → k ≤ x.length - 1 →
        C9Ext x (buildPos x (ds 0 % x.length)) d k
          ((List.range k).foldl (erStep ds) (erStart x x ds)) := by
  obtain ⟨d, hd, hbase⟩ := C9_base hx h2 ds
  refine ⟨d, hd, ?_⟩
  intro k
  induction k with
  | zero => intro hk1 _; omega
  | succ k ih =>
    intro _ hk2
    by_cases hk0 : k = 0
    · subst hk0
      rw [show List.range (0 + 1) = [0] from rfl, List.foldl_cons, List.foldl_nil]
      exact hbase
    · rw [List.range_succ, List.foldl_append, List.foldl_cons, List.foldl_nil]
      exact C9_step hx ds hd (by omega) (by omega)
        (erLoop_inv hx hx rfl h2 ds (erStart x x ds)
          (erInit_inv hx hx rfl (by omega) ds) k (by omega))
        (ih (by omega) (by omega))

end C9Section

/-- Claim C9 (confirmed): for every permutation `x` of `{0,...,n-1}` with
`n ≥ 1` regarded as a cyclic tour, `edge_recombination` with both parents
equal to `x` returns, for every draw sequence, a child that reads the
tour off from some start position `p0` either forward (`d = 1`) or
backward (`d = n - 1`) — i.e. a rotation or reflection of the parent
tour. -/
theorem C9_edge_recombination_identical_parents (x : List Nat)
    (ds : Nat → Nat) (hn : 1 ≤ x.length) (hx : IsPermList x) :
    ∃ p0 d c, (d = 1 ∨ d = x.length - 1) ∧ edgeRecomb x x ds = some c ∧
      ∀ i < x.length, c.getD i 0 = tourAt x p0 d i := by
  by_cases h2 : 2 ≤ x.length
  · obtain ⟨d, hd, hrun⟩ := C9_run hx h2 ds
    obtain ⟨hcur, hchild, _⟩ := hrun (x.length - 1) (by omega) (le_refl _)
    obtain ⟨hcl, _, _, _⟩ := erLoop_inv hx hx rfl h2 ds (erStart x x ds)
      (erInit_inv hx hx rfl (by omega) ds) (x.length - 1) (le_refl _)
    refine ⟨buildPos x (ds 0 % x.length), d,
      ((List.range (x.length - 1)).foldl (erStep ds) (erStart x x ds)).child.set
        (x.length - 1)
        ((List.range (x.length - 1)).foldl (erStep ds) (erStart x x ds)).cur,
      hd, ?_, ?_⟩
    · simp only [edgeRecomb]
      rw [if_neg (by omega)]
    · intro i hi
      rw [getD_set_lt _ _ _ i (by rw [hcl]; omega)]
      by_cases hieq : x.length - 1 = i
      · rw [if_pos hieq, hcur, ← hieq]
      · rw [if_neg hieq]
        exact hchild i (by omega)
  · have hn1 : x.length = 1 := by omega
    have haeq : x = [0] := by
      have hperm : x.Perm [0] := by
        have := hx
        unfold IsPermList at this
        rw [hn1] at this
        exact this
      exact List.perm_singleton.1 hperm
    subst haeq
    refine ⟨0, 1, [0], Or.inl rfl, ?_, ?_⟩
    · simp [edgeRecomb, erStart, Nat.mod_one]
    · intro i hi
      have hi0 : i = 0 := by simp at hi; omega
      subst hi0
      rfl

/-- Witness for C9 at the identity tour of length 3 with the constant
draw sequence. -/
theorem C9_edge_recombination_identical_parents_witness :
    ∃ p0 d c, (d = 1 ∨ d = ([0, 1, 2] : List Nat).length - 1) ∧
      edgeRecomb [0, 1, 2] [0, 1, 2] (fun _ => 0) = some c ∧
      ∀ i < ([0, 1, 2] : List Nat).length,
        c.getD i 0 = tourAt [0, 1, 2] p0 d i :=
  C9_edge_recombination_identical_parents [0, 1, 2] (fun _ => 0)
    (by decide) (by decide)

/-- Claim C1 counterexample: the claim demands that
`partially_mapped_crossover` also yields a permutation child for `n = 1`,
but there `end = random.randrange(size - 1) = randrange(0)` raises
`ValueError` (modelled as `none`), so no child exists at all. -/
theorem C1_counterexample_pmx_n1 : pmx [0] [0] (fun _ => 0) = none := rfl

/-- Claim C1 (corrected): every operator — `initialize` (shuffle),
`two_exchange_neighborhood_search` (with its default delta-evaluation
hook), `partially_mapped_crossover`, `cycle_crossover`, and
`edge_recombination` — applied to permutation solutions yields a
permutation of `{0,...,n-1}` again, for every draw sequence; for PMX
this holds for every `n ≥ 2` (at `n = 1` PMX raises `ValueError`), for
the others for every `n ≥ 1` (and trivially `n = 0` where applicable). -/
theorem C1_operators_preserve_permutation :
    (∀ (ds : Nat → Nat) (l : List Nat), IsPermList l →
      IsPermList (shuffleSeq ds l)) ∧
    (∀ (f : List Nat → Int) (better : Int → Int → Bool) (bi : Bool)
      (ds : Nat → Nat) (s : SolState), IsPermList s.x →
      ∃ s1 r, twoExchangeNS f better defaultDeltaEval bi ds s = some (s1, r) ∧
        IsPermList s1.x) ∧
    (∀ (ds : Nat → Nat) (aX bX : List Nat), IsPermList aX → IsPermList bX →
      bX.length = aX.length → 2 ≤ aX.length →
      ∃ c, pmx aX bX ds = some c ∧ IsPermList c) ∧
    (∀ (aX bX : List Nat), IsPermList aX → IsPermList bX →
      bX.length = aX.length → IsPermList (cycleCrossover aX bX)) ∧
    (∀ (ds : Nat → Nat) (aX bX : List Nat), IsPermList aX → IsPermList bX →
      bX.length = aX.length → 1 ≤ aX.length →
      ∃ c, edgeRecomb aX bX ds = some c ∧ IsPermList c) := by
  refine ⟨fun ds l h => shuffleSeq_isPerm ds l h, ?_, ?_, ?_, ?_⟩
  · intro f better bi ds s hs
    obtain ⟨s1, r, h1, h2, _⟩ := twoExchangeNS_default_isPerm f better bi ds s hs
    exact ⟨s1, r, h1, h2⟩
  · intro ds aX bX ha hb hlen hn
    obtain ⟨c, h1, h2, _⟩ := pmx_isPerm ds ha hb hlen hn
    exact ⟨c, h1, h2⟩
  · intro aX bX ha hb hlen
    exact (cycleCrossover_isPerm ha hb hlen).1
  · intro ds aX bX ha hb hlen hn
    obtain ⟨c, h1, h2, _⟩ := edgeRecomb_isPerm ds ha hb hlen hn
    exact ⟨c, h1, h2⟩

/-- Witness for C1 at concrete permutations of length 3. -/
theorem C1_operators_preserve_permutation_witness :
    IsPermList (shuffleSeq (fun _ => 1) [2, 0, 1]) ∧
    (∃ s1 r, twoExchangeNS (fun _ => (0 : Int)) (fun _ _ => false)
        defaultDeltaEval true (fun _ => 1) ⟨[1, 0, 2], 0, false⟩ =
      some (s1, r) ∧ IsPermList s1.x) ∧
    (∃ c, pmx [1, 0, 2] [2, 1, 0] (fun _ => 1) = some c ∧ IsPermList c) ∧
    IsPermList (cycleCrossover [1, 0, 2] [2, 1, 0]) ∧
    (∃ c, edgeRecomb [1, 0, 2] [2, 1, 0] (fun _ => 1) = some c ∧ IsPermList c) :=
  ⟨C1_operators_preserve_permutation.1 (fun _ => 1) [2, 0, 1] (by decide),
    C1_operators_preserve_permutation.2.1 (fun _ => (0 : Int))
      (fun _ _ => false) true (fun _ => 1) ⟨[1, 0, 2], 0, false⟩ (by decide),
    C1_operators_preserve_permutation.2.2.1 (fun _ => 1) [1, 0, 2] [2, 1, 0]
      (by decide) (by decide) (by decide) (by decide),
    C1_operators_preserve_permutation.2.2.2.1 [1, 0, 2] [2, 1, 0]
      (by decide) (by decide) (by decide),
    C1_operators_preserve_permutation.2.2.2.2 (fun _ => 1) [1, 0, 2] [2, 1, 0]
      (by decide) (by decide) (by decide) (by decide)⟩

end PermSol
